import Mathlib

/-!
Shallow embedding of the dependency-resolution engine in `src/main.rs` of the
2020-Winter-Hackathon-LLNL repository.

The Rust program keeps a `State` holding a job registry
(`HashMap<i64, Job>`) and a symbol index (`HashMap<String, HashSet<i64>>`).
We model `i64` job ids as `Int` (ids are only compared and stored, never
subject to arithmetic, so no wrap-around modelling is needed), hash sets as
`Finset Int`, and the two hash maps as functions into `Option`.  Hash-set
iteration order is unspecified in Rust; we iterate in ascending order via
`idList`, and every order-sensitive lemma is proved for arbitrary lists, so
nothing depends on the particular order chosen.
-/

deriving instance DecidableEq for Except

/-- Enumerate a multiset of ids as a sorted list.  Rust iterates a `HashSet`
in an unspecified order; any concrete order is a faithful rendering, and we
pick the ascending one.  `List.insertionSort` is structurally recursive, so
this enumeration evaluates inside the kernel. -/
def Multiset.sortedAsc (s : Multiset Int) : List Int :=
  Quot.liftOn s (fun l => l.insertionSort (· ≤ ·)) fun l₁ l₂ h =>
    List.eq_of_perm_of_sorted
      ((List.perm_insertionSort _ l₁).trans
        (h.trans (List.perm_insertionSort _ l₂).symm))
      (List.sorted_insertionSort _ l₁) (List.sorted_insertionSort _ l₂)

/-- Enumerate a finite set of ids as a sorted, duplicate-free list. -/
def idList (s : Finset Int) : List Int := Multiset.sortedAsc s.1

/-- A job in the dependency graph: its identifier, the set of job ids it is
blocked on (`ancestors`), and the set of job ids blocked on it (`children`).
Mirrors `struct Job` in `src/main.rs`. -/
structure Job where
  jobid : Int
  ancestors : Finset Int
  children : Finset Int
deriving DecidableEq

/-- Mirrors `Job::new`: a fresh job with empty ancestor and children sets. -/
def Job.new (jobid : Int) : Job :=
  { jobid := jobid, ancestors := ∅, children := ∅ }

/-- Mirrors `enum StateError` in `src/main.rs`. -/
inductive StateError where
  | InvalidJobID
  | MissingDescendent
  | InvalidEvent
deriving DecidableEq

/-- Mirrors `enum DependencyType`. -/
inductive DependencyType where
  | In
  | Out
  | InOut
deriving DecidableEq

/-- Mirrors `enum DependencyScope`. -/
inductive DependencyScope where
  | User
  | Global
deriving DecidableEq

/-- Mirrors `enum DependencyScheme`. -/
inductive DependencyScheme where
  | String
  | Fluid
deriving DecidableEq

/-- Mirrors `struct Dependency` (the `scope` and `scheme` fields are carried
but never read by the engine, exactly as in the source). -/
structure Dependency where
  dep_type : DependencyType
  scope : DependencyScope
  scheme : DependencyScheme
  value : String
deriving DecidableEq

/-- Mirrors `Dependency::new`. -/
def Dependency.new (dep_type : DependencyType) (value : String) : Dependency :=
  { dep_type := dep_type, scope := DependencyScope.Global,
    scheme := DependencyScheme.String, value := value }

/-- Mirrors `struct State`: the job registry and the out-symbol lookup
table. -/
structure State where
  jobs : Int → Option Job
  jobs_with_out_symbol : String → Option (Finset Int)

/-- Mirrors `State::new`. -/
def State.new : State :=
  { jobs := fun _ => none, jobs_with_out_symbol := fun _ => none }

/-- Store (or overwrite) the registry record under key `k`; models an
in-place mutation of `self.jobs` in Rust. -/
def State.setJob (s : State) (k : Int) (j : Job) : State :=
  { s with jobs := Function.update s.jobs k (some j) }

/-- The loop body of `State::add_in_dependency`: walk the matching producer
ids; for each one found in the registry, record the producer as an ancestor
of the new job and the new job as a child of the producer.  A producer id
absent from the registry aborts the walk with `InvalidJobID` (Rust
`return Err(...)`), keeping the mutations already made. -/
def addInDepGo (s : State) (in_job : Job) :
    List Int → State × Job × Except StateError Unit
  | [] => (s, in_job, Except.ok ())
  | out_jobid :: rest =>
    match s.jobs out_jobid with
    | none => (s, in_job, Except.error StateError.InvalidJobID)
    | some out_job =>
        addInDepGo
          (s.setJob out_jobid
            { out_job with children := insert in_job.jobid out_job.children })
          { in_job with ancestors := insert out_job.jobid in_job.ancestors }
          rest

/-- Mirrors `State::add_in_dependency`.  The Rust function mutates `self`
and the borrowed `in_job`; we return both updated values together with the
`Result`. -/
def State.add_in_dependency (s : State) (in_job : Job) (symbol : String) :
    State × Job × Except StateError Unit :=
  match s.jobs_with_out_symbol symbol with
  | some out_jobs => addInDepGo s in_job (idList out_jobs)
  | none => (s, in_job, Except.ok ())

/-- Mirrors `State::add_out_dependency`: record the job under the symbol in
the out-symbol lookup table, creating the entry if absent. -/
def State.add_out_dependency (s : State) (out_job : Job) (symbol : String) :
    State :=
  match s.jobs_with_out_symbol symbol with
  | some out_jobs =>
      { s with jobs_with_out_symbol :=
          (Function.update s.jobs_with_out_symbol symbol
            (some (insert out_job.jobid out_jobs))) }
  | none =>
      { s with jobs_with_out_symbol :=
          (Function.update s.jobs_with_out_symbol symbol
            (some (insert out_job.jobid ∅))) }

/-- Mirrors `State::rollback_job_add`, which has an empty body. -/
def State.rollback_job_add (s : State) (_job : Job) : State := s

/-- One arm of the `match dependency.dep_type` inside `State::add_job`:
`In` runs the in-step, `Out` runs the out-step, `InOut` runs the in-step
first and then the out-step on the same symbol. -/
def State.process_dependency (s : State) (job : Job) (dependency : Dependency) :
    State × Job × Except StateError Unit :=
  match dependency.dep_type with
  | DependencyType.In => s.add_in_dependency job dependency.value
  | DependencyType.Out =>
      (s.add_out_dependency job dependency.value, job, Except.ok ())
  | DependencyType.InOut =>
      match s.add_in_dependency job dependency.value with
      | (s₁, j₁, ret) => (s₁.add_out_dependency j₁ dependency.value, j₁, ret)

/-- The body of the dependency loop in `State::add_job`: process one
dependency; on error the Rust code logs and calls the (no-op) rollback hook
and keeps going. -/
def addJobStep (acc : State × Job) (dependency : Dependency) : State × Job :=
  match acc.1.process_dependency acc.2 dependency with
  | (s₁, j₁, Except.ok _) => (s₁, j₁)
  | (s₁, j₁, Except.error _) => (s₁.rollback_job_add j₁, j₁)

/-- Mirrors `State::add_job`: an empty dependency list is an early return
(the job is never inserted); otherwise all dependencies are processed in
order and the job is inserted into the registry at the end. -/
def State.add_job (s : State) (jobid : Int) (dependencies : List Dependency) :
    State :=
  if dependencies.length = 0 then s
  else
    match dependencies.foldl addJobStep (s, Job.new jobid) with
    | (s₁, job) => s₁.setJob jobid job

/-- The body of the `finish` loop in `State::job_event`: look up one
recorded child; if absent, set the error flag and continue; if present,
remove the finishing job from its ancestors and collect it into the ready
set when its ancestor set has become empty. -/
def finishStep (jobid : Int) (acc : State × Finset Int × Bool)
    (child_id : Int) : State × Finset Int × Bool :=
  match acc.1.jobs child_id with
  | none => (acc.1, acc.2.1, true)
  | some child_job =>
      let child_job :=
        { child_job with ancestors := child_job.ancestors.erase jobid }
      (acc.1.setJob child_id child_job,
       if child_job.ancestors = ∅ then insert child_job.jobid acc.2.1
       else acc.2.1,
       acc.2.2)

/-- Mirrors `State::job_event`.  The Rust function takes `&mut self` and
returns a `Result`; we return the updated state together with the result.
The `match event.as_str()` over string literals is rendered as the
equivalent chain of string-equality tests.  The `finish` arm snapshots the
children set before the loop (`job.children.clone()` in Rust); we iterate
it in sorted order. -/
def State.job_event (s : State) (jobid : Int) (event : String) :
    State × Except StateError (Finset Int) :=
  match s.jobs jobid with
  | none => (s, Except.error StateError.InvalidJobID)
  | some job =>
    if event = "submit" then
      (s, Except.ok (if job.ancestors = ∅ then {jobid} else ∅))
    else if event = "depend" then (s, Except.ok ∅)
    else if event = "alloc" then (s, Except.ok ∅)
    else if event = "finish" then
      match (idList job.children).foldl (finishStep jobid)
          (s, ∅, false) with
      | (s₁, _, true) => (s₁, Except.error StateError.MissingDescendent)
      | (s₁, ret, false) => (s₁, Except.ok ret)
    else (s, Except.error StateError.InvalidEvent)

/-- An external call against the engine: either a job registration or a
lifecycle event.  Used to talk about every state the program can reach. -/
inductive Op where
  | addJob (jobid : Int) (dependencies : List Dependency)
  | jobEvent (jobid : Int) (event : String)
deriving DecidableEq

/-- Apply one call to the state (the result set of an event is discarded,
as a driver would after forwarding it). -/
def stepOp (s : State) : Op → State
  | Op.addJob jobid deps => s.add_job jobid deps
  | Op.jobEvent jobid ev => (s.job_event jobid ev).1

/-- Run a list of calls left to right. -/
def runOps (s : State) (ops : List Op) : State := ops.foldl stepOp s

/-- The job ids of the `add_job` calls of a call list, in order. -/
def addIds : List Op → List Int
  | [] => []
  | Op.addJob jobid _ :: rest => jobid :: addIds rest
  | Op.jobEvent _ _ :: rest => addIds rest

/-- A child is ready after job `jobid` finishes when its record exists and
its ancestor set minus `jobid` is empty; used to state what the `finish`
arm returns. -/
def readyAfter (s : State) (jobid child_id : Int) : Bool :=
  match s.jobs child_id with
  | some j => decide (j.ancestors.erase jobid = ∅)
  | none => false

/-- Every registry record is stored under its own `jobid`; the program
establishes this at every insertion. -/
def KeyConsistent (s : State) : Prop :=
  ∀ k j, s.jobs k = some j → j.jobid = k

/-- Half of the edge-symmetry invariant of the spec: every recorded
ancestor is itself registered and lists the dependent job among its
children. -/
def EdgeHalfSym (s : State) : Prop :=
  ∀ a ja, s.jobs a = some ja → ∀ b ∈ ja.ancestors,
    ∃ jb, s.jobs b = some jb ∧ a ∈ jb.children

/-- No job lists itself among its children. -/
def NoSelfChild (s : State) : Prop :=
  ∀ a ja, s.jobs a = some ja → a ∉ ja.children

/-- Every recorded child is itself present in the registry. -/
def ChildrenPresent (s : State) : Prop :=
  ∀ a ja, s.jobs a = some ja → ∀ c ∈ ja.children, s.jobs c ≠ none

/-- The bundle of structural invariants preserved by the engine along any
call sequence whose `add_job` ids are pairwise distinct. -/
def GoodState (s : State) : Prop :=
  KeyConsistent s ∧ EdgeHalfSym s ∧ NoSelfChild s ∧ ChildrenPresent s

/-- How the registry evolves while `add_job` is wiring edges for the new
job `newid`: no record appears or disappears, and every existing record
keeps its id and ancestors while its children grow by at most `newid`. -/
def GrowEvolve (newid : Int) (s s' : State) : Prop :=
  (∀ k, s'.jobs k = none ↔ s.jobs k = none) ∧
  (∀ k jk, s.jobs k = some jk → ∃ jk', s'.jobs k = some jk' ∧
    jk'.jobid = jk.jobid ∧ jk'.ancestors = jk.ancestors ∧
    jk.children ⊆ jk'.children ∧ jk'.children ⊆ insert newid jk.children)

/-- How the state evolves across any `job_event` call: the symbol index is
untouched, no record appears or disappears, and every record keeps its id
and children while its ancestor set can only shrink. -/
def EventEvolve (s s' : State) : Prop :=
  s'.jobs_with_out_symbol = s.jobs_with_out_symbol ∧
  (∀ k, s'.jobs k = none ↔ s.jobs k = none) ∧
  (∀ k jk, s.jobs k = some jk → ∃ jk', s'.jobs k = some jk' ∧
    jk'.jobid = jk.jobid ∧ jk'.children = jk.children ∧
    jk'.ancestors ⊆ jk.ancestors)

/-- A sample call sequence used in witnesses: job 1 produces "foo", job 2
produces "bar", job 3 consumes "foo", job 4 consumes "foo" and "bar". -/
def fanTrace : List Op :=
  [Op.addJob 1 [Dependency.new DependencyType.Out "foo"],
   Op.addJob 2 [Dependency.new DependencyType.Out "bar"],
   Op.addJob 3 [Dependency.new DependencyType.In "foo"],
   Op.addJob 4 [Dependency.new DependencyType.In "foo",
                Dependency.new DependencyType.In "bar"]]

/-- A sample call sequence used in witnesses: producer job 1, consumer
job 2. -/
def chainTrace : List Op :=
  [Op.addJob 1 [Dependency.new DependencyType.Out "foo"],
   Op.addJob 2 [Dependency.new DependencyType.In "foo"]]

/-- A handcrafted state with a dangling child edge: job 1 lists children 2
and 3, but job 2 is absent from the registry.  Used to exercise the
`MissingDescendent` path. -/
def danglingState : State :=
  (State.new.setJob 1 { jobid := 1, ancestors := ∅, children := {2, 3} }).setJob
    3 { jobid := 3, ancestors := {1}, children := ∅ }

theorem mem_idList {s : Finset Int} {a : Int} : a ∈ idList s ↔ a ∈ s := by
  rcases s with ⟨m, hm⟩
  induction m using Quot.inductionOn with
  | h l =>
      exact (List.perm_insertionSort _ l).mem_iff.trans Iff.rfl

theorem idList_nodup (s : Finset Int) : (idList s).Nodup := by
  rcases s with ⟨m, hm⟩
  induction m using Quot.inductionOn with
  | h l =>
      exact (List.perm_insertionSort _ l).nodup_iff.mpr hm

theorem idList_toFinset (s : Finset Int) : (idList s).toFinset = s := by
  ext a
  rw [List.mem_toFinset, mem_idList]

/-- Evaluable check that the registry stores, under key `k`, a record with
exactly the given id, ancestor set, and children set (used to state
concrete witnesses in a way the kernel can evaluate). -/
def jobRecordIs (s : State) (k i : Int) (anc ch : Finset Int) : Bool :=
  match s.jobs k with
  | some j => decide (j.jobid = i) && decide (j.ancestors = anc) &&
      decide (j.children = ch)
  | none => false

theorem jobs_eq_of_jobRecordIs {s : State} {k i : Int} {anc ch : Finset Int}
    (h : jobRecordIs s k i anc ch = true) :
    s.jobs k = some { jobid := i, ancestors := anc, children := ch } := by
  unfold jobRecordIs at h
  cases hk : s.jobs k with
  | none =>
      rw [hk] at h
      exact absurd h (by simp)
  | some j =>
      rw [hk] at h
      simp only [Bool.and_eq_true, decide_eq_true_eq] at h
      obtain ⟨⟨h1, h2⟩, h3⟩ := h
      cases j
      simp_all

theorem setJob_self (s : State) (k : Int) (j : Job) :
    (s.setJob k j).jobs k = some j := by
  simp [State.setJob, Function.update_same]

theorem setJob_other (s : State) (k k' : Int) (j : Job) (h : k' ≠ k) :
    (s.setJob k j).jobs k' = s.jobs k' := by
  simp [State.setJob, Function.update_noteq h]

theorem setJob_index (s : State) (k : Int) (j : Job) :
    (s.setJob k j).jobs_with_out_symbol = s.jobs_with_out_symbol := rfl

theorem setJob_key (s : State) (k : Int) (j : Job) (hs : KeyConsistent s)
    (hj : j.jobid = k) : KeyConsistent (s.setJob k j) := by
  intro k' j' h'
  by_cases hk : k' = k
  · subst hk
    rw [setJob_self] at h'
    cases h'
    exact hj
  · rw [setJob_other s k k' j hk] at h'
    exact hs k' j' h'

theorem addInDepGo_jobid (l : List Int) :
    ∀ (s : State) (j : Job), ((addInDepGo s j l).2.1).jobid = j.jobid := by
  induction l with
  | nil => intro s j; rfl
  | cons c rest ih =>
      intro s j
      cases hc : s.jobs c with
      | none => simp [addInDepGo, hc]
      | some oj => simpa [addInDepGo, hc] using ih _ _

theorem addInDepGo_children (l : List Int) :
    ∀ (s : State) (j : Job), ((addInDepGo s j l).2.1).children = j.children := by
  induction l with
  | nil => intro s j; rfl
  | cons c rest ih =>
      intro s j
      cases hc : s.jobs c with
      | none => simp [addInDepGo, hc]
      | some oj => simpa [addInDepGo, hc] using ih _ _

theorem addInDepGo_index (l : List Int) :
    ∀ (s : State) (j : Job),
      ((addInDepGo s j l).1).jobs_with_out_symbol = s.jobs_with_out_symbol := by
  induction l with
  | nil => intro s j; rfl
  | cons c rest ih =>
      intro s j
      cases hc : s.jobs c with
      | none => simp [addInDepGo, hc]
      | some oj => simpa [addInDepGo, hc] using ih _ _

theorem addInDepGo_none_iff (l : List Int) :
    ∀ (s : State) (j : Job) (k : Int),
      ((addInDepGo s j l).1).jobs k = none ↔ s.jobs k = none := by
  induction l with
  | nil => intro s j k; rfl
  | cons c rest ih =>
      intro s j k
      cases hc : s.jobs c with
      | none => simp [addInDepGo, hc]
      | some oj =>
          rw [show (addInDepGo s j (c :: rest)) =
              addInDepGo
                (s.setJob c { oj with children := insert j.jobid oj.children })
                { j with ancestors := insert oj.jobid j.ancestors } rest by
            simp [addInDepGo, hc]]
          rw [ih]
          by_cases hk : k = c
          · subst hk
            rw [setJob_self]
            simp [hc]
          · rw [setJob_other _ _ _ _ hk]

theorem addInDepGo_frame (l : List Int) :
    ∀ (s : State) (j : Job) (k : Int) (jk : Job), s.jobs k = some jk →
      ∃ jk', ((addInDepGo s j l).1).jobs k = some jk' ∧
        jk'.jobid = jk.jobid ∧ jk'.ancestors = jk.ancestors ∧
        jk.children ⊆ jk'.children ∧
        jk'.children ⊆ insert j.jobid jk.children := by
  induction l with
  | nil =>
      intro s j k jk hk
      exact ⟨jk, hk, rfl, rfl, Finset.Subset.refl _, Finset.subset_insert _ _⟩
  | cons c rest ih =>
      intro s j k jk hk
      cases hc : s.jobs c with
      | none => simpa [addInDepGo, hc] using
          ⟨jk, hk, rfl, rfl, Finset.Subset.refl _, Finset.subset_insert _ _⟩
      | some oj =>
          rw [show (addInDepGo s j (c :: rest)) =
              addInDepGo
                (s.setJob c { oj with children := insert j.jobid oj.children })
                { j with ancestors := insert oj.jobid j.ancestors } rest by
            simp [addInDepGo, hc]]
          by_cases hkc : k = c
          · subst hkc
            rw [hk] at hc
            cases hc
            obtain ⟨jk', h1, h2, h3, h4, h5⟩ :=
              ih (s.setJob k { jk with children := insert j.jobid jk.children })
                { j with ancestors := insert jk.jobid j.ancestors } k
                { jk with children := insert j.jobid jk.children }
                (setJob_self _ _ _)
            refine ⟨jk', h1, h2, h3, ?_, ?_⟩
            · exact (Finset.subset_insert _ _).trans h4
            · simpa using h5
          · obtain ⟨jk', h1, h2, h3, h4, h5⟩ :=
              ih (s.setJob c { oj with children := insert j.jobid oj.children })
                { j with ancestors := insert oj.jobid j.ancestors } k jk
                (by rw [setJob_other _ _ _ _ hkc]; exact hk)
            exact ⟨jk', h1, h2, h3, h4, h5⟩

theorem addInDepGo_evolve (l : List Int) (s : State) (j : Job) :
    GrowEvolve j.jobid s ((addInDepGo s j l).1) :=
  ⟨addInDepGo_none_iff l s j, addInDepGo_frame l s j⟩

theorem addInDepGo_keyConsistent (l : List Int) :
    ∀ (s : State) (j : Job), KeyConsistent s →
      KeyConsistent ((addInDepGo s j l).1) := by
  induction l with
  | nil => intro s j hs; exact hs
  | cons c rest ih =>
      intro s j hs
      cases hc : s.jobs c with
      | none => simpa [addInDepGo, hc] using hs
      | some oj =>
          rw [show (addInDepGo s j (c :: rest)) =
              addInDepGo
                (s.setJob c { oj with children := insert j.jobid oj.children })
                { j with ancestors := insert oj.jobid j.ancestors } rest by
            simp [addInDepGo, hc]]
          exact ih _ _ (setJob_key _ _ _ hs (hs c oj hc))

theorem addInDepGo_anc (l : List Int) :
    ∀ (s : State) (j : Job), KeyConsistent s →
      ∀ b ∈ ((addInDepGo s j l).2.1).ancestors,
        b ∈ j.ancestors ∨ (s.jobs b ≠ none ∧
          ∃ jb, ((addInDepGo s j l).1).jobs b = some jb ∧
            j.jobid ∈ jb.children) := by
  induction l with
  | nil => intro s j _ b hb; exact Or.inl hb
  | cons c rest ih =>
      intro s j hs b hb
      cases hc : s.jobs c with
      | none =>
          simp only [addInDepGo, hc] at hb ⊢
          exact Or.inl hb
      | some oj =>
          obtain ⟨ojid, ojanc, ojch⟩ := oj
          have hcoj : ojid = c := hs c _ hc
          subst hcoj
          simp only [addInDepGo, hc] at hb ⊢
          have hkey₁ : KeyConsistent
              (s.setJob ojid
                { jobid := ojid, ancestors := ojanc,
                  children := insert j.jobid ojch }) :=
            setJob_key _ _ _ hs rfl
          rcases ih _ _ hkey₁ b hb with hmem | ⟨hne, jb, hjb, hmemjb⟩
          · have hmem' : b = ojid ∨ b ∈ j.ancestors := by simpa using hmem
            rcases hmem' with hbc | hbj
            · subst hbc
              right
              constructor
              · rw [hc]; exact fun h => Option.noConfusion h
              · obtain ⟨jk', h1, _, _, h4, _⟩ :=
                  addInDepGo_frame rest
                    (s.setJob b
                      { jobid := b, ancestors := ojanc,
                        children := insert j.jobid ojch })
                    { jobid := j.jobid, ancestors := insert b j.ancestors,
                      children := j.children }
                    b
                    { jobid := b, ancestors := ojanc,
                      children := insert j.jobid ojch }
                    (setJob_self _ _ _)
                exact ⟨jk', h1, h4 (Finset.mem_insert_self _ _)⟩
            · exact Or.inl hbj
          · right
            refine ⟨?_, jb, hjb, hmemjb⟩
            intro hnone
            apply hne
            by_cases hbc : b = ojid
            · subst hbc
              rw [hnone] at hc
              exact Option.noConfusion hc
            · rw [setJob_other _ _ _ _ hbc]
              exact hnone

theorem growEvolve_refl (newid : Int) (s : State) : GrowEvolve newid s s :=
  ⟨fun _ => Iff.rfl, fun _ jk hk =>
    ⟨jk, hk, rfl, rfl, Finset.Subset.refl _, Finset.subset_insert _ _⟩⟩

theorem growEvolve_of_jobs_eq {newid : Int} {s s' : State}
    (h : s'.jobs = s.jobs) : GrowEvolve newid s s' :=
  ⟨fun k => by rw [h], fun k jk hk =>
    ⟨jk, by rw [h]; exact hk, rfl, rfl, Finset.Subset.refl _,
      Finset.subset_insert _ _⟩⟩

theorem growEvolve_trans {newid : Int} {s₁ s₂ s₃ : State}
    (h12 : GrowEvolve newid s₁ s₂) (h23 : GrowEvolve newid s₂ s₃) :
    GrowEvolve newid s₁ s₃ := by
  obtain ⟨n12, f12⟩ := h12
  obtain ⟨n23, f23⟩ := h23
  refine ⟨fun k => (n23 k).trans (n12 k), fun k jk hk => ?_⟩
  obtain ⟨jk₂, h2, hid2, hanc2, hsub2, hsub2'⟩ := f12 k jk hk
  obtain ⟨jk₃, h3, hid3, hanc3, hsub3, hsub3'⟩ := f23 k jk₂ h2
  refine ⟨jk₃, h3, hid3.trans hid2, hanc3.trans hanc2, hsub2.trans hsub3, ?_⟩
  intro x hx
  rcases Finset.mem_insert.mp (hsub3' hx) with h | h
  · exact Finset.mem_insert.mpr (Or.inl h)
  · rcases Finset.mem_insert.mp (hsub2' h) with h' | h'
    · exact Finset.mem_insert.mpr (Or.inl h')
    · exact Finset.mem_insert.mpr (Or.inr h')

theorem add_in_dependency_jobid (s : State) (j : Job) (symbol : String) :
    ((s.add_in_dependency j symbol).2.1).jobid = j.jobid := by
  unfold State.add_in_dependency
  cases s.jobs_with_out_symbol symbol with
  | none => rfl
  | some out_jobs => exact addInDepGo_jobid _ _ _

theorem add_in_dependency_children (s : State) (j : Job) (symbol : String) :
    ((s.add_in_dependency j symbol).2.1).children = j.children := by
  unfold State.add_in_dependency
  cases s.jobs_with_out_symbol symbol with
  | none => rfl
  | some out_jobs => exact addInDepGo_children _ _ _

theorem add_in_dependency_evolve (s : State) (j : Job) (symbol : String) :
    GrowEvolve j.jobid s ((s.add_in_dependency j symbol).1) := by
  unfold State.add_in_dependency
  cases s.jobs_with_out_symbol symbol with
  | none => exact growEvolve_refl _ _
  | some out_jobs => exact addInDepGo_evolve _ _ _

theorem add_in_dependency_key (s : State) (j : Job) (symbol : String)
    (hs : KeyConsistent s) : KeyConsistent ((s.add_in_dependency j symbol).1) := by
  unfold State.add_in_dependency
  cases s.jobs_with_out_symbol symbol with
  | none => exact hs
  | some out_jobs => exact addInDepGo_keyConsistent _ _ _ hs

theorem add_in_dependency_anc (s : State) (j : Job) (symbol : String)
    (hs : KeyConsistent s) :
    ∀ b ∈ ((s.add_in_dependency j symbol).2.1).ancestors,
      b ∈ j.ancestors ∨ (s.jobs b ≠ none ∧
        ∃ jb, ((s.add_in_dependency j symbol).1).jobs b = some jb ∧
          j.jobid ∈ jb.children) := by
  unfold State.add_in_dependency
  cases s.jobs_with_out_symbol symbol with
  | none => exact fun b hb => Or.inl hb
  | some out_jobs => exact addInDepGo_anc _ _ _ hs

theorem add_out_dependency_jobs (s : State) (j : Job) (symbol : String) :
    (s.add_out_dependency j symbol).jobs = s.jobs := by
  unfold State.add_out_dependency
  cases s.jobs_with_out_symbol symbol <;> rfl

theorem process_dependency_jobid (s : State) (j : Job) (d : Dependency) :
    ((s.process_dependency j d).2.1).jobid = j.jobid := by
  unfold State.process_dependency
  cases d.dep_type with
  | In => exact add_in_dependency_jobid _ _ _
  | Out => rfl
  | InOut =>
      rcases h : s.add_in_dependency j d.value with ⟨s₁, j₁, ret⟩
      have := add_in_dependency_jobid s j d.value
      rw [h] at this
      simpa using this

theorem process_dependency_children (s : State) (j : Job) (d : Dependency) :
    ((s.process_dependency j d).2.1).children = j.children := by
  unfold State.process_dependency
  cases d.dep_type with
  | In => exact add_in_dependency_children _ _ _
  | Out => rfl
  | InOut =>
      rcases h : s.add_in_dependency j d.value with ⟨s₁, j₁, ret⟩
      have := add_in_dependency_children s j d.value
      rw [h] at this
      simpa using this

theorem process_dependency_evolve (s : State) (j : Job) (d : Dependency) :
    GrowEvolve j.jobid s ((s.process_dependency j d).1) := by
  unfold State.process_dependency
  cases d.dep_type with
  | In => exact add_in_dependency_evolve _ _ _
  | Out => exact growEvolve_of_jobs_eq (add_out_dependency_jobs _ _ _)
  | InOut =>
      rcases h : s.add_in_dependency j d.value with ⟨s₁, j₁, ret⟩
      have h1 := add_in_dependency_evolve s j d.value
      rw [h] at h1
      exact growEvolve_trans h1
        (growEvolve_of_jobs_eq (add_out_dependency_jobs _ _ _))

theorem process_dependency_key (s : State) (j : Job) (d : Dependency)
    (hs : KeyConsistent s) : KeyConsistent ((s.process_dependency j d).1) := by
  unfold State.process_dependency
  cases d.dep_type with
  | In => exact add_in_dependency_key _ _ _ hs
  | Out =>
      intro k jk hk
      rw [show (s.add_out_dependency j d.value).jobs = s.jobs from
        add_out_dependency_jobs _ _ _] at hk
      exact hs k jk hk
  | InOut =>
      rcases h : s.add_in_dependency j d.value with ⟨s₁, j₁, ret⟩
      have h1 := add_in_dependency_key s j d.value hs
      rw [h] at h1
      intro k jk hk
      rw [show (s₁.add_out_dependency j₁ d.value).jobs = s₁.jobs from
        add_out_dependency_jobs _ _ _] at hk
      exact h1 k jk hk

theorem process_dependency_anc (s : State) (j : Job) (d : Dependency)
    (hs : KeyConsistent s) :
    ∀ b ∈ ((s.process_dependency j d).2.1).ancestors,
      b ∈ j.ancestors ∨ (s.jobs b ≠ none ∧
        ∃ jb, ((s.process_dependency j d).1).jobs b = some jb ∧
          j.jobid ∈ jb.children) := by
  unfold State.process_dependency
  cases d.dep_type with
  | In => exact add_in_dependency_anc _ _ _ hs
  | Out => exact fun b hb => Or.inl hb
  | InOut =>
      rcases h : s.add_in_dependency j d.value with ⟨s₁, j₁, ret⟩
      have h1 := add_in_dependency_anc s j d.value hs
      rw [h] at h1
      intro b hb
      rcases h1 b hb with hmem | ⟨hne, jb, hjb, hmemjb⟩
      · exact Or.inl hmem
      · refine Or.inr ⟨hne, jb, ?_, hmemjb⟩
        rw [show (s₁.add_out_dependency j₁ d.value).jobs = s₁.jobs from
          add_out_dependency_jobs _ _ _]
        exact hjb

theorem addJobStep_eq (acc : State × Job) (d : Dependency) :
    addJobStep acc d =
      ((acc.1.process_dependency acc.2 d).1,
       (acc.1.process_dependency acc.2 d).2.1) := by
  unfold addJobStep
  rcases h : acc.1.process_dependency acc.2 d with ⟨s₁, j₁, ret⟩
  cases ret <;> rfl

theorem foldAdd_jobid (deps : List Dependency) :
    ∀ (s : State) (j : Job),
      ((deps.foldl addJobStep (s, j)).2).jobid = j.jobid := by
  induction deps with
  | nil => intro s j; rfl
  | cons d rest ih =>
      intro s j
      rw [List.foldl_cons, addJobStep_eq]
      rw [ih]
      exact process_dependency_jobid _ _ _

theorem foldAdd_children (deps : List Dependency) :
    ∀ (s : State) (j : Job),
      ((deps.foldl addJobStep (s, j)).2).children = j.children := by
  induction deps with
  | nil => intro s j; rfl
  | cons d rest ih =>
      intro s j
      rw [List.foldl_cons, addJobStep_eq]
      rw [ih]
      exact process_dependency_children _ _ _

theorem foldAdd_evolve (deps : List Dependency) :
    ∀ (s : State) (j : Job),
      GrowEvolve j.jobid s ((deps.foldl addJobStep (s, j)).1) := by
  induction deps with
  | nil => intro s j; exact growEvolve_refl _ _
  | cons d rest ih =>
      intro s j
      rw [List.foldl_cons, addJobStep_eq]
      have h1 := process_dependency_evolve s j d
      have h2 := ih ((s.process_dependency j d).1) ((s.process_dependency j d).2.1)
      rw [process_dependency_jobid] at h2
      exact growEvolve_trans h1 h2

theorem foldAdd_key (deps : List Dependency) :
    ∀ (s : State) (j : Job), KeyConsistent s →
      KeyConsistent ((deps.foldl addJobStep (s, j)).1) := by
  induction deps with
  | nil => intro s j hs; exact hs
  | cons d rest ih =>
      intro s j hs
      rw [List.foldl_cons, addJobStep_eq]
      exact ih _ _ (process_dependency_key _ _ _ hs)

theorem foldAdd_anc (deps : List Dependency) :
    ∀ (s : State) (j : Job), KeyConsistent s →
      ∀ b ∈ ((deps.foldl addJobStep (s, j)).2).ancestors,
        b ∈ j.ancestors ∨ (s.jobs b ≠ none ∧
          ∃ jb, ((deps.foldl addJobStep (s, j)).1).jobs b = some jb ∧
            j.jobid ∈ jb.children) := by
  induction deps with
  | nil => intro s j _ b hb; exact Or.inl hb
  | cons d rest ih =>
      intro s j hs b hb
      rw [List.foldl_cons, addJobStep_eq] at hb ⊢
      have hkey₁ := process_dependency_key s j d hs
      rcases ih _ _ hkey₁ b hb with hmem | ⟨hne, jb, hjb, hmemjb⟩
      · rcases process_dependency_anc s j d hs b hmem with hm | ⟨hne, jb, hjb, hmemjb⟩
        · exact Or.inl hm
        · refine Or.inr ⟨hne, ?_⟩
          have hev := foldAdd_evolve rest ((s.process_dependency j d).1)
            ((s.process_dependency j d).2.1)
          obtain ⟨jb', h1, _, _, hsub, _⟩ := hev.2 b jb hjb
          exact ⟨jb', h1, hsub hmemjb⟩
      · refine Or.inr ⟨?_, jb, hjb, ?_⟩
        · intro hnone
          exact hne (((process_dependency_evolve s j d).1 b).mpr hnone)
        · rw [process_dependency_jobid] at hmemjb
          exact hmemjb

theorem add_job_nil (s : State) (jobid : Int) :
    State.add_job s jobid [] = s := rfl

theorem add_job_frame_other (s : State) (id : Int) (deps : List Dependency)
    (k : Int) (hk : k ≠ id) :
    ((State.add_job s id deps).jobs k = none ↔ s.jobs k = none) ∧
    (∀ jk, s.jobs k = some jk →
      ∃ jk', (State.add_job s id deps).jobs k = some jk' ∧
        jk'.jobid = jk.jobid ∧ jk'.ancestors = jk.ancestors ∧
        jk.children ⊆ jk'.children ∧ jk'.children ⊆ insert id jk.children) := by
  unfold State.add_job
  by_cases hlen : deps.length = 0
  · rw [if_pos hlen]
    exact ⟨Iff.rfl, fun jk hjk =>
      ⟨jk, hjk, rfl, rfl, Finset.Subset.refl _, Finset.subset_insert _ _⟩⟩
  · rw [if_neg hlen]
    rcases hfold : deps.foldl addJobStep (s, Job.new id) with ⟨s₁, jN⟩
    have hev := foldAdd_evolve deps s (Job.new id)
    rw [hfold] at hev
    constructor
    · rw [setJob_other _ _ _ _ hk]
      exact hev.1 k
    · intro jk hjk
      obtain ⟨jk', h1, h2, h3, h4, h5⟩ := hev.2 k jk hjk
      exact ⟨jk', by rw [setJob_other _ _ _ _ hk]; exact h1, h2, h3, h4, h5⟩

theorem add_job_key (s : State) (id : Int) (deps : List Dependency)
    (hs : KeyConsistent s) : KeyConsistent (State.add_job s id deps) := by
  unfold State.add_job
  by_cases hlen : deps.length = 0
  · rw [if_pos hlen]
    exact hs
  · rw [if_neg hlen]
    rcases hfold : deps.foldl addJobStep (s, Job.new id) with ⟨s₁, jN⟩
    have hkey₁ := foldAdd_key deps s (Job.new id) hs
    have hjid := foldAdd_jobid deps s (Job.new id)
    rw [hfold] at hkey₁ hjid
    exact setJob_key _ _ _ hkey₁ hjid

theorem add_job_self (s : State) (id : Int) (deps : List Dependency)
    (hne : deps ≠ []) (hfresh : s.jobs id = none) (hkey : KeyConsistent s) :
    ∃ jN, (State.add_job s id deps).jobs id = some jN ∧ jN.jobid = id ∧
      jN.children = ∅ ∧ ∀ b ∈ jN.ancestors, s.jobs b ≠ none ∧ b ≠ id ∧
        ∃ jb, (State.add_job s id deps).jobs b = some jb ∧
          id ∈ jb.children := by
  unfold State.add_job
  have hlen : ¬ deps.length = 0 := by
    intro h
    exact hne (List.length_eq_zero.mp h)
  rw [if_neg hlen]
  rcases hfold : deps.foldl addJobStep (s, Job.new id) with ⟨s₁, jN⟩
  have hjid := foldAdd_jobid deps s (Job.new id)
  have hch := foldAdd_children deps s (Job.new id)
  have hanc := foldAdd_anc deps s (Job.new id) hkey
  rw [hfold] at hjid hch hanc
  refine ⟨jN, setJob_self _ _ _, hjid, hch, ?_⟩
  intro b hb
  rcases hanc b hb with hmem | ⟨hnone, jb, hjb, hmemjb⟩
  · exact absurd hmem (by simp [Job.new])
  · have hbid : b ≠ id := by
      intro h
      rw [h, hfresh] at hnone
      exact hnone rfl
    refine ⟨hnone, hbid, jb, ?_, hmemjb⟩
    rw [setJob_other _ _ _ _ hbid]
    exact hjb

theorem readyAfter_some {s : State} {jobid c : Int} {jc : Job}
    (h : s.jobs c = some jc) :
    (readyAfter s jobid c = true) ↔ jc.ancestors.erase jobid = ∅ := by
  simp [readyAfter, h]

theorem readyAfter_none {s : State} {jobid c : Int} (h : s.jobs c = none) :
    readyAfter s jobid c = false := by
  simp [readyAfter, h]

theorem finishFold_none_iff (jobid : Int) (l : List Int) :
    ∀ (s : State) (ret : Finset Int) (err : Bool) (k : Int),
      ((l.foldl (finishStep jobid) (s, ret, err)).1).jobs k = none ↔
        s.jobs k = none := by
  induction l with
  | nil => intro s ret err k; exact Iff.rfl
  | cons c rest ih =>
      intro s ret err k
      rw [List.foldl_cons]
      cases hc : s.jobs c with
      | none =>
          simp only [finishStep, hc]
          exact ih s ret true k
      | some cj =>
          simp only [finishStep, hc]
          rw [ih]
          by_cases hk : k = c
          · subst hk
            rw [setJob_self]
            simp [hc]
          · rw [setJob_other _ _ _ _ hk]

theorem finishFold_frame_notmem (jobid : Int) (l : List Int) :
    ∀ (s : State) (ret : Finset Int) (err : Bool) (k : Int), k ∉ l →
      ((l.foldl (finishStep jobid) (s, ret, err)).1).jobs k = s.jobs k := by
  induction l with
  | nil => intro s ret err k _; rfl
  | cons c rest ih =>
      intro s ret err k hk
      have hkc : k ≠ c := fun h => hk (h ▸ List.mem_cons_self c rest)
      have hkrest : k ∉ rest := fun h => hk (List.mem_cons_of_mem c h)
      rw [List.foldl_cons]
      cases hc : s.jobs c with
      | none =>
          simp only [finishStep, hc]
          exact ih s ret true k hkrest
      | some cj =>
          simp only [finishStep, hc]
          rw [ih _ _ _ k hkrest, setJob_other _ _ _ _ hkc]

theorem finishFold_evolve (jobid : Int) (l : List Int) :
    ∀ (s : State) (ret : Finset Int) (err : Bool),
      ((l.foldl (finishStep jobid) (s, ret, err)).1).jobs_with_out_symbol =
        s.jobs_with_out_symbol ∧
      (∀ k jk, s.jobs k = some jk →
        ∃ jk', ((l.foldl (finishStep jobid) (s, ret, err)).1).jobs k = some jk' ∧
          jk'.jobid = jk.jobid ∧ jk'.children = jk.children ∧
          jk'.ancestors ⊆ jk.ancestors) := by
  induction l with
  | nil =>
      intro s ret err
      exact ⟨rfl, fun k jk hk => ⟨jk, hk, rfl, rfl, Finset.Subset.refl _⟩⟩
  | cons c rest ih =>
      intro s ret err
      rw [List.foldl_cons]
      cases hc : s.jobs c with
      | none =>
          simp only [finishStep, hc]
          exact ih s ret true
      | some cj =>
          simp only [finishStep, hc]
          set s₁ := s.setJob c
            { jobid := cj.jobid, ancestors := cj.ancestors.erase jobid,
              children := cj.children } with hs₁
          obtain ⟨hidx, hframe⟩ := ih s₁
            (if cj.ancestors.erase jobid = ∅ then insert cj.jobid ret else ret)
            err
          refine ⟨hidx.trans rfl, fun k jk hk => ?_⟩
          by_cases hkc : k = c
          · subst hkc
            rw [hk] at hc
            cases hc
            obtain ⟨jk', h1, h2, h3, h4⟩ := hframe k
              { jobid := cj.jobid, ancestors := cj.ancestors.erase jobid,
                children := cj.children } (setJob_self _ _ _)
            exact ⟨jk', h1, h2, h3, h4.trans (Finset.erase_subset _ _)⟩
          · obtain ⟨jk', h1, h2, h3, h4⟩ := hframe k jk
              (by rw [hs₁, setJob_other _ _ _ _ hkc]; exact hk)
            exact ⟨jk', h1, h2, h3, h4⟩

theorem finishFold_mutate (jobid : Int) (l : List Int) :
    ∀ (s : State) (ret : Finset Int) (err : Bool), l.Nodup →
      ∀ c ∈ l, ∀ jc, s.jobs c = some jc →
        ((l.foldl (finishStep jobid) (s, ret, err)).1).jobs c =
          some { jobid := jc.jobid, ancestors := jc.ancestors.erase jobid,
                 children := jc.children } := by
  induction l with
  | nil => intro s ret err _ c hc; exact absurd hc (List.not_mem_nil c)
  | cons hd rest ih =>
      intro s ret err hnd c hcmem jc hjc
      have hhd : hd ∉ rest := (List.nodup_cons.mp hnd).1
      have hndrest : rest.Nodup := (List.nodup_cons.mp hnd).2
      rw [List.foldl_cons]
      rcases List.mem_cons.mp hcmem with hceq | hcrest
      · subst hceq
        simp only [finishStep, hjc]
        rw [finishFold_frame_notmem jobid rest _ _ _ c hhd, setJob_self]
      · have hcne : c ≠ hd := fun h => hhd (h ▸ hcrest)
        cases hhdlook : s.jobs hd with
        | none =>
            simp only [finishStep, hhdlook]
            exact ih s ret true hndrest c hcrest jc hjc
        | some hj =>
            simp only [finishStep, hhdlook]
            exact ih _ _ _ hndrest c hcrest jc
              (by rw [setJob_other _ _ _ _ hcne]; exact hjc)

theorem finishFold_err (jobid : Int) (l : List Int) :
    ∀ (s : State) (ret : Finset Int) (err : Bool),
      ((l.foldl (finishStep jobid) (s, ret, err)).2.2 = true) ↔
        (err = true ∨ ∃ c ∈ l, s.jobs c = none) := by
  induction l with
  | nil =>
      intro s ret err
      simp
  | cons hd rest ih =>
      intro s ret err
      rw [List.foldl_cons]
      cases hhd : s.jobs hd with
      | none =>
          simp only [finishStep, hhd]
          rw [ih s ret true]
          constructor
          · intro _; exact Or.inr ⟨hd, List.mem_cons_self _ _, hhd⟩
          · intro _; exact Or.inl rfl
      | some hj =>
          simp only [finishStep, hhd]
          rw [ih]
          constructor
          · rintro (herr | ⟨c, hcmem, hcnone⟩)
            · exact Or.inl herr
            · refine Or.inr ⟨c, List.mem_cons_of_mem _ hcmem, ?_⟩
              by_cases hchd : c = hd
              · subst hchd
                rw [setJob_self] at hcnone
                exact absurd hcnone (by simp)
              · rw [setJob_other _ _ _ _ hchd] at hcnone
                exact hcnone
          · rintro (herr | ⟨c, hcmem, hcnone⟩)
            · exact Or.inl herr
            · rcases List.mem_cons.mp hcmem with hceq | hcrest
              · subst hceq
                rw [hhd] at hcnone
                exact absurd hcnone (by simp)
              · refine Or.inr ⟨c, hcrest, ?_⟩
                have hchd : c ≠ hd := by
                  intro h
                  rw [h, hhd] at hcnone
                  exact Option.noConfusion hcnone
                rw [setJob_other _ _ _ _ hchd]
                exact hcnone

theorem finishFold_ret_mem (jobid : Int) (l : List Int) :
    ∀ (s : State) (ret : Finset Int) (err : Bool), l.Nodup →
      (∀ c ∈ l, ∀ jc, s.jobs c = some jc → jc.jobid = c) →
      ∀ x, x ∈ (l.foldl (finishStep jobid) (s, ret, err)).2.1 ↔
        (x ∈ ret ∨ (x ∈ l ∧ readyAfter s jobid x = true)) := by
  induction l with
  | nil =>
      intro s ret err _ _ x
      simp
  | cons hd rest ih =>
      intro s ret err hnd hkeys x
      have hhd : hd ∉ rest := (List.nodup_cons.mp hnd).1
      have hndrest : rest.Nodup := (List.nodup_cons.mp hnd).2
      rw [List.foldl_cons]
      cases hhdlook : s.jobs hd with
      | none =>
          simp only [finishStep, hhdlook]
          rw [ih s ret true hndrest
            (fun c hc => hkeys c (List.mem_cons_of_mem _ hc))]
          constructor
          · rintro (hret | ⟨hmem, hready⟩)
            · exact Or.inl hret
            · exact Or.inr ⟨List.mem_cons_of_mem _ hmem, hready⟩
          · rintro (hret | ⟨hmem, hready⟩)
            · exact Or.inl hret
            · rcases List.mem_cons.mp hmem with hxeq | hxrest
              · subst hxeq
                rw [readyAfter_none hhdlook] at hready
                exact absurd hready (by simp)
              · exact Or.inr ⟨hxrest, hready⟩
      | some hj =>
          have hjid : hj.jobid = hd := hkeys hd (List.mem_cons_self _ _) hj hhdlook
          simp only [finishStep, hhdlook]
          have hkeys₁ : ∀ c ∈ rest, ∀ jc,
              (s.setJob hd
                { jobid := hj.jobid, ancestors := hj.ancestors.erase jobid,
                  children := hj.children }).jobs c = some jc →
                jc.jobid = c := by
            intro c hc jc hjc
            have hchd : c ≠ hd := fun h => hhd (h ▸ hc)
            rw [setJob_other _ _ _ _ hchd] at hjc
            exact hkeys c (List.mem_cons_of_mem _ hc) jc hjc
          rw [ih _ _ _ hndrest hkeys₁]
          have hready_eq : ∀ c ∈ rest,
              readyAfter
                (s.setJob hd
                  { jobid := hj.jobid, ancestors := hj.ancestors.erase jobid,
                    children := hj.children }) jobid c =
                readyAfter s jobid c := by
            intro c hc
            have hchd : c ≠ hd := fun h => hhd (h ▸ hc)
            unfold readyAfter
            rw [setJob_other _ _ _ _ hchd]
          have hready_hd : (readyAfter s jobid hd = true) ↔
              hj.ancestors.erase jobid = ∅ := readyAfter_some hhdlook
          by_cases hcond : hj.ancestors.erase jobid = ∅
          · rw [if_pos hcond]
            constructor
            · rintro (hret | ⟨hmem, hready⟩)
              · rcases Finset.mem_insert.mp hret with hxeq | hxret
                · have hxhd : x = hd := hxeq.trans hjid
                  subst hxhd
                  exact Or.inr ⟨List.mem_cons_self _ _, hready_hd.mpr hcond⟩
                · exact Or.inl hxret
              · exact Or.inr ⟨List.mem_cons_of_mem _ hmem,
                  (hready_eq x hmem) ▸ hready⟩
            · rintro (hret | ⟨hmem, hready⟩)
              · exact Or.inl (Finset.mem_insert_of_mem hret)
              · rcases List.mem_cons.mp hmem with hxeq | hxrest
                · refine Or.inl ?_
                  rw [hxeq, ← hjid]
                  exact Finset.mem_insert_self _ _
                · exact Or.inr ⟨hxrest, (hready_eq x hxrest).symm ▸ hready⟩
          · rw [if_neg hcond]
            constructor
            · rintro (hret | ⟨hmem, hready⟩)
              · exact Or.inl hret
              · exact Or.inr ⟨List.mem_cons_of_mem _ hmem,
                  (hready_eq x hmem) ▸ hready⟩
            · rintro (hret | ⟨hmem, hready⟩)
              · exact Or.inl hret
              · rcases List.mem_cons.mp hmem with hxeq | hxrest
                · subst hxeq
                  rw [hready_hd] at hready
                  exact absurd hready hcond
                · exact Or.inr ⟨hxrest, (hready_eq x hxrest).symm ▸ hready⟩

theorem eventEvolve_refl (s : State) : EventEvolve s s :=
  ⟨rfl, fun _ => Iff.rfl, fun _ jk hk => ⟨jk, hk, rfl, rfl, Finset.Subset.refl _⟩⟩

theorem job_event_invalid_jobid (s : State) (jobid : Int) (event : String)
    (h : s.jobs jobid = none) :
    s.job_event jobid event = (s, Except.error StateError.InvalidJobID) := by
  simp [State.job_event, h]

theorem job_event_submit (s : State) (jobid : Int) (j : Job)
    (h : s.jobs jobid = some j) :
    s.job_event jobid "submit" =
      (s, Except.ok (if j.ancestors = ∅ then {jobid} else ∅)) := by
  simp [State.job_event, h]

theorem job_event_depend (s : State) (jobid : Int) (j : Job)
    (h : s.jobs jobid = some j) :
    s.job_event jobid "depend" = (s, Except.ok ∅) := by
  simp [State.job_event, h]

theorem job_event_alloc (s : State) (jobid : Int) (j : Job)
    (h : s.jobs jobid = some j) :
    s.job_event jobid "alloc" = (s, Except.ok ∅) := by
  simp [State.job_event, h]

theorem job_event_invalid_event (s : State) (jobid : Int) (event : String)
    (j : Job) (h : s.jobs jobid = some j)
    (h1 : event ≠ "submit") (h2 : event ≠ "depend") (h3 : event ≠ "alloc")
    (h4 : event ≠ "finish") :
    s.job_event jobid event = (s, Except.error StateError.InvalidEvent) := by
  simp [State.job_event, h, h1, h2, h3, h4]

theorem job_event_finish_state (s : State) (A : Int) (jA : Job)
    (hA : s.jobs A = some jA) :
    (s.job_event A "finish").1 =
      ((idList jA.children).foldl (finishStep A) (s, ∅, false)).1 := by
  simp only [State.job_event, hA]
  rw [if_pos trivial]
  rcases (idList jA.children).foldl (finishStep A) (s, ∅, false) with ⟨s₁, ret, err⟩
  cases err <;> rfl

theorem finish_mutates_children (s : State) (A : Int) (jA : Job)
    (hA : s.jobs A = some jA) :
    (∀ c ∈ jA.children, ∀ jc, s.jobs c = some jc →
      ((s.job_event A "finish").1).jobs c =
        some { jobid := jc.jobid, ancestors := jc.ancestors.erase A,
               children := jc.children }) ∧
    (∀ k, k ∉ jA.children → ((s.job_event A "finish").1).jobs k = s.jobs k) := by
  rw [job_event_finish_state s A jA hA]
  constructor
  · intro c hc jc hjc
    exact finishFold_mutate A (idList jA.children) s ∅ false (idList_nodup _)
      c (mem_idList.mpr hc) jc hjc
  · intro k hk
    exact finishFold_frame_notmem A (idList jA.children) s ∅ false k
      (fun h => hk (mem_idList.mp h))

theorem finish_result_ok (s : State) (A : Int) (jA : Job)
    (hA : s.jobs A = some jA)
    (hkeys : ∀ c ∈ jA.children, ∀ jc, s.jobs c = some jc → jc.jobid = c)
    (hpres : ∀ c ∈ jA.children, s.jobs c ≠ none) :
    (s.job_event A "finish").2 =
      Except.ok (jA.children.filter fun c => readyAfter s A c = true) := by
  simp only [State.job_event, hA]
  rw [if_pos trivial]
  have hkeys' : ∀ c ∈ idList jA.children, ∀ jc, s.jobs c = some jc →
      jc.jobid = c := fun c hc => hkeys c (mem_idList.mp hc)
  have hflag : ((idList jA.children).foldl (finishStep A) (s, ∅, false)).2.2 =
      false := by
    have hnot : ¬ (((idList jA.children).foldl (finishStep A)
        (s, ∅, false)).2.2 = true) := by
      rw [finishFold_err]
      rintro (hfalse | ⟨c, hcmem, hcnone⟩)
      · exact Bool.false_ne_true hfalse
      · exact hpres c (mem_idList.mp hcmem) hcnone
    revert hnot
    cases ((idList jA.children).foldl (finishStep A) (s, ∅, false)).2.2 <;> simp
  have hret : ∀ x, x ∈ ((idList jA.children).foldl (finishStep A)
      (s, ∅, false)).2.1 ↔ (x ∈ (∅ : Finset Int) ∨
        (x ∈ idList jA.children ∧ readyAfter s A x = true)) :=
    finishFold_ret_mem A (idList jA.children) s ∅ false (idList_nodup _) hkeys'
  rcases hfold : (idList jA.children).foldl (finishStep A) (s, ∅, false)
    with ⟨s₁, ret, err⟩
  rw [hfold] at hflag hret
  simp only at hflag
  subst hflag
  show Except.ok ret =
    Except.ok (jA.children.filter fun c => readyAfter s A c = true)
  congr 1
  ext x
  rw [Finset.mem_filter]
  have hx := hret x
  simp only at hx
  rw [hx]
  simp [mem_idList]

theorem finish_result_err (s : State) (A : Int) (jA : Job)
    (hA : s.jobs A = some jA) (c : Int) (hc : c ∈ jA.children)
    (hmiss : s.jobs c = none) :
    (s.job_event A "finish").2 = Except.error StateError.MissingDescendent := by
  simp only [State.job_event, hA]
  rw [if_pos trivial]
  have hflag : ((idList jA.children).foldl (finishStep A) (s, ∅, false)).2.2 =
      true := by
    rw [finishFold_err]
    exact Or.inr ⟨c, mem_idList.mpr hc, hmiss⟩
  rcases hfold : (idList jA.children).foldl (finishStep A) (s, ∅, false)
    with ⟨s₁, ret, err⟩
  rw [hfold] at hflag
  simp only at hflag
  subst hflag
  rfl

theorem job_event_evolve (s : State) (jobid : Int) (event : String) :
    EventEvolve s ((s.job_event jobid event).1) := by
  cases h : s.jobs jobid with
  | none => rw [job_event_invalid_jobid s jobid event h]; exact eventEvolve_refl s
  | some j =>
      by_cases h1 : event = "submit"
      · rw [h1, job_event_submit s jobid j h]; exact eventEvolve_refl s
      · by_cases h2 : event = "depend"
        · rw [h2, job_event_depend s jobid j h]; exact eventEvolve_refl s
        · by_cases h3 : event = "alloc"
          · rw [h3, job_event_alloc s jobid j h]; exact eventEvolve_refl s
          · by_cases h4 : event = "finish"
            · rw [h4, job_event_finish_state s jobid j h]
              obtain ⟨hidx, hframe⟩ :=
                finishFold_evolve jobid (idList j.children) s ∅ false
              exact ⟨hidx, finishFold_none_iff jobid (idList j.children) s ∅ false,
                hframe⟩
            · rw [job_event_invalid_event s jobid event j h h1 h2 h3 h4]
              exact eventEvolve_refl s

theorem job_event_good (s : State) (jobid : Int) (event : String)
    (hs : GoodState s) : GoodState ((s.job_event jobid event).1) := by
  obtain ⟨hkey, hedge, hself, hchild⟩ := hs
  obtain ⟨_, hnone, hframe⟩ := job_event_evolve s jobid event
  have hback : ∀ k jk', ((s.job_event jobid event).1).jobs k = some jk' →
      ∃ jk, s.jobs k = some jk ∧ jk'.jobid = jk.jobid ∧
        jk'.children = jk.children ∧ jk'.ancestors ⊆ jk.ancestors := by
    intro k jk' hk'
    cases hk : s.jobs k with
    | none =>
        rw [(hnone k).mpr hk] at hk'
        exact absurd hk' (by simp)
    | some jk =>
        obtain ⟨jk'', h1, h2, h3, h4⟩ := hframe k jk hk
        rw [hk'] at h1
        cases h1
        exact ⟨jk, rfl, h2, h3, h4⟩
  refine ⟨?_, ?_, ?_, ?_⟩
  · intro k jk' hk'
    obtain ⟨jk, hk, h2, _, _⟩ := hback k jk' hk'
    rw [h2]
    exact hkey k jk hk
  · intro a ja' hja' b hb
    obtain ⟨ja, hja, _, _, hanc⟩ := hback a ja' hja'
    obtain ⟨jb, hjb, hmem⟩ := hedge a ja hja b (hanc hb)
    obtain ⟨jb', h1, _, h3, _⟩ := hframe b jb hjb
    exact ⟨jb', h1, h3.symm ▸ hmem⟩
  · intro a ja' hja'
    obtain ⟨ja, hja, _, hch, _⟩ := hback a ja' hja'
    rw [hch]
    exact hself a ja hja
  · intro a ja' hja' c hc
    obtain ⟨ja, hja, _, hch, _⟩ := hback a ja' hja'
    rw [hch] at hc
    intro hcnone
    exact hchild a ja hja c hc ((hnone c).mp hcnone)

theorem add_job_good (s : State) (id : Int) (deps : List Dependency)
    (hfresh : s.jobs id = none) (hs : GoodState s) :
    GoodState (State.add_job s id deps) := by
  obtain ⟨hkey, hedge, hself, hchild⟩ := hs
  by_cases hne : deps = []
  · subst hne
    rw [add_job_nil]
    exact ⟨hkey, hedge, hself, hchild⟩
  · obtain ⟨jN, hjN, hjNid, hjNch, hjNanc⟩ := add_job_self s id deps hne hfresh hkey
    have hback : ∀ a, a ≠ id → ∀ ja', (State.add_job s id deps).jobs a = some ja' →
        ∃ ja, s.jobs a = some ja ∧ ja'.jobid = ja.jobid ∧
          ja'.ancestors = ja.ancestors ∧ ja'.children ⊆ insert id ja.children := by
      intro a haid ja' hja'
      obtain ⟨hnone_iff, hframe⟩ := add_job_frame_other s id deps a haid
      cases hk : s.jobs a with
      | none =>
          rw [hnone_iff.mpr hk] at hja'
          exact absurd hja' (by simp)
      | some ja =>
          obtain ⟨ja'', h1, h2, h3, _, h5⟩ := hframe ja hk
          rw [hja'] at h1
          cases h1
          exact ⟨ja, rfl, h2, h3, h5⟩
    refine ⟨add_job_key s id deps hkey, ?_, ?_, ?_⟩
    · intro a ja hja b hb
      by_cases haid : a = id
      · subst haid
        rw [hjN] at hja
        cases hja
        obtain ⟨_, _, jb, hjb, hmem⟩ := hjNanc b hb
        exact ⟨jb, hjb, hmem⟩
      · obtain ⟨ja₀, hja₀, _, hanc, _⟩ := hback a haid ja hja
        rw [hanc] at hb
        obtain ⟨jb₀, hjb₀, hmem₀⟩ := hedge a ja₀ hja₀ b hb
        have hbid : b ≠ id := by
          intro hb'
          rw [hb', hfresh] at hjb₀
          exact Option.noConfusion hjb₀
        obtain ⟨_, hframe_b⟩ := add_job_frame_other s id deps b hbid
        obtain ⟨jb₁, h1, _, _, h4, _⟩ := hframe_b jb₀ hjb₀
        exact ⟨jb₁, h1, h4 hmem₀⟩
    · intro a ja hja
      by_cases haid : a = id
      · subst haid
        rw [hjN] at hja
        cases hja
        rw [hjNch]
        exact Finset.not_mem_empty _
      · obtain ⟨ja₀, hja₀, _, _, hchsub⟩ := hback a haid ja hja
        intro hmem
        rcases Finset.mem_insert.mp (hchsub hmem) with h | h
        · exact haid h
        · exact hself a ja₀ hja₀ h
    · intro a ja hja c hc
      by_cases haid : a = id
      · subst haid
        rw [hjN] at hja
        cases hja
        rw [hjNch] at hc
        exact absurd hc (Finset.not_mem_empty _)
      · obtain ⟨ja₀, hja₀, _, _, hchsub⟩ := hback a haid ja hja
        rcases Finset.mem_insert.mp (hchsub hc) with hcid | hcmem
        · subst hcid
          rw [hjN]
          simp
        · have hcnone := hchild a ja₀ hja₀ c hcmem
          by_cases hcid : c = id
          · subst hcid
            rw [hjN]
            simp
          · obtain ⟨hnone_iff, _⟩ := add_job_frame_other s id deps c hcid
            intro h
            exact hcnone (hnone_iff.mp h)

theorem runOps_nil (s : State) : runOps s [] = s := rfl

theorem runOps_cons (s : State) (op : Op) (t : List Op) :
    runOps s (op :: t) = runOps (stepOp s op) t := rfl

theorem runOps_append (s : State) (t₁ t₂ : List Op) :
    runOps s (t₁ ++ t₂) = runOps (runOps s t₁) t₂ :=
  List.foldl_append _ _ _ _

theorem addIds_append (t₁ t₂ : List Op) :
    addIds (t₁ ++ t₂) = addIds t₁ ++ addIds t₂ := by
  induction t₁ with
  | nil => rfl
  | cons op rest ih =>
      cases op with
      | addJob id deps => simp [addIds, ih]
      | jobEvent id ev => simp [addIds, ih]

theorem not_mem_addIds {i : Int} {t : List Op}
    (h : ∀ deps, Op.addJob i deps ∉ t) : i ∉ addIds t := by
  induction t with
  | nil => exact List.not_mem_nil i
  | cons op rest ih =>
      have hrest : ∀ deps, Op.addJob i deps ∉ rest :=
        fun deps hmem => h deps (List.mem_cons_of_mem _ hmem)
      cases op with
      | addJob id deps =>
          simp only [addIds]
          intro hmem
          rcases List.mem_cons.mp hmem with heq | hmem'
          · exact h deps (by rw [heq]; exact List.mem_cons_self _ _)
          · exact ih hrest hmem'
      | jobEvent id ev =>
          simp only [addIds]
          exact ih hrest

theorem runOps_none (t : List Op) :
    ∀ (s : State) (i : Int), i ∉ addIds t → s.jobs i = none →
      (runOps s t).jobs i = none := by
  induction t with
  | nil => intro s i _ h; exact h
  | cons op rest ih =>
      intro s i hmem hnone
      rw [runOps_cons]
      cases op with
      | addJob id deps =>
          simp only [addIds] at hmem
          have hne : i ≠ id := fun h => hmem (List.mem_cons.mpr (Or.inl h))
          have hrest : i ∉ addIds rest :=
            fun h => hmem (List.mem_cons.mpr (Or.inr h))
          exact ih _ i hrest
            (((add_job_frame_other s id deps i hne).1).mpr hnone)
      | jobEvent id ev =>
          simp only [addIds] at hmem
          exact ih _ i hmem (((job_event_evolve s id ev).2.1 i).mpr hnone)

theorem runOps_persist (t : List Op) :
    ∀ (s : State) (X : Int) (jX : Job), s.jobs X = some jX → X ∉ addIds t →
      ∃ jX', (runOps s t).jobs X = some jX' ∧ jX'.jobid = jX.jobid ∧
        jX'.ancestors ⊆ jX.ancestors ∧
        jX'.children ⊆ jX.children ∪ (addIds t).toFinset := by
  induction t with
  | nil =>
      intro s X jX h _
      exact ⟨jX, h, rfl, Finset.Subset.refl _, by simp⟩
  | cons op rest ih =>
      intro s X jX hX hmem
      rw [runOps_cons]
      cases op with
      | addJob id deps =>
          simp only [addIds] at hmem ⊢
          have hne : X ≠ id := fun h => hmem (List.mem_cons.mpr (Or.inl h))
          have hrest : X ∉ addIds rest :=
            fun h => hmem (List.mem_cons.mpr (Or.inr h))
          obtain ⟨_, hframe⟩ := add_job_frame_other s id deps X hne
          obtain ⟨jX₁, h1, h2, h3, _, h5⟩ := hframe jX hX
          obtain ⟨jX', h1', h2', h3', h4'⟩ := ih _ X jX₁ h1 hrest
          refine ⟨jX', h1', h2'.trans h2, h3 ▸ h3', ?_⟩
          intro x hx
          rw [List.toFinset_cons]
          rcases Finset.mem_union.mp (h4' hx) with hx1 | hx2
          · rcases Finset.mem_insert.mp (h5 hx1) with hxid | hxch
            · exact Finset.mem_union_right _
                (Finset.mem_insert.mpr (Or.inl hxid))
            · exact Finset.mem_union_left _ hxch
          · exact Finset.mem_union_right _ (Finset.mem_insert.mpr (Or.inr hx2))
      | jobEvent id ev =>
          simp only [addIds] at hmem ⊢
          obtain ⟨_, _, hframe⟩ := job_event_evolve s id ev
          obtain ⟨jX₁, h1, h2, h3, h4⟩ := hframe X jX hX
          obtain ⟨jX', h1', h2', h3', h4'⟩ := ih _ X jX₁ h1 hmem
          exact ⟨jX', h1', h2'.trans h2, h3'.trans h4, h3 ▸ h4'⟩

theorem runOps_good (t : List Op) :
    ∀ s, GoodState s → (addIds t).Nodup →
      (∀ i ∈ addIds t, s.jobs i = none) → GoodState (runOps s t) := by
  induction t with
  | nil => intro s hs _ _; exact hs
  | cons op rest ih =>
      intro s hs hnd hfresh
      rw [runOps_cons]
      cases op with
      | addJob id deps =>
          simp only [addIds] at hnd hfresh
          have hid : s.jobs id = none := hfresh id (List.mem_cons_self _ _)
          have hndrest : (addIds rest).Nodup := (List.nodup_cons.mp hnd).2
          have hidrest : id ∉ addIds rest := (List.nodup_cons.mp hnd).1
          apply ih _ (add_job_good s id deps hid hs) hndrest
          intro i hi
          have hine : i ≠ id := fun h => hidrest (h ▸ hi)
          exact ((add_job_frame_other s id deps i hine).1).mpr
            (hfresh i (List.mem_cons_of_mem _ hi))
      | jobEvent id ev =>
          simp only [addIds] at hnd hfresh
          apply ih _ (job_event_good s id ev hs) hnd
          intro i hi
          exact ((job_event_evolve s id ev).2.1 i).mpr (hfresh i hi)

theorem goodState_new : GoodState State.new :=
  ⟨fun _ _ h => Option.noConfusion h,
   fun _ _ h => Option.noConfusion h,
   fun _ _ h => Option.noConfusion h,
   fun _ _ h => Option.noConfusion h⟩

theorem runOps_good_new (t : List Op) (hnd : (addIds t).Nodup) :
    GoodState (runOps State.new t) :=
  runOps_good t State.new goodState_new hnd (fun _ _ => rfl)

/-- C2: for every job A present in the registry whose recorded children are
all present (under their own ids), `job_event(A, "finish")` succeeds and
returns exactly the set of A's children whose ancestor set becomes empty as
a result of removing A from it (`readyAfter`), and every child's ancestor
set loses A and no other entry (the record otherwise unchanged). -/
theorem finish_returns_exactly_newly_unblocked (s : State) (A : Int) (jA : Job)
    (hA : s.jobs A = some jA)
    (hchildren : ∀ c ∈ jA.children, ∃ jc, s.jobs c = some jc ∧ jc.jobid = c) :
    (s.job_event A "finish").2 =
      Except.ok (jA.children.filter fun c => readyAfter s A c = true) ∧
    (∀ c ∈ jA.children, ∀ jc, s.jobs c = some jc →
      ((s.job_event A "finish").1).jobs c =
        some { jobid := jc.jobid, ancestors := jc.ancestors.erase A,
               children := jc.children }) := by
  have hkeys : ∀ c ∈ jA.children, ∀ jc, s.jobs c = some jc → jc.jobid = c := by
    intro c hc jc hjc
    obtain ⟨jc', hjc', hid⟩ := hchildren c hc
    rw [hjc] at hjc'
    cases hjc'
    exact hid
  have hpres : ∀ c ∈ jA.children, s.jobs c ≠ none := by
    intro c hc
    obtain ⟨jc', hjc', _⟩ := hchildren c hc
    rw [hjc']
    simp
  exact ⟨finish_result_ok s A jA hA hkeys hpres,
    (finish_mutates_children s A jA hA).1⟩

/-- Witness for C2 on the fan-out scenario: finishing job 1 (children 3 and
4) returns exactly `{3}` — job 4 still waits on producer 2 of "bar" — and
both children lose 1 from their ancestor sets. -/
theorem finish_returns_exactly_newly_unblocked_witness :
    (runOps State.new fanTrace).jobs 1 =
      some { jobid := 1, ancestors := ∅, children := {3, 4} } ∧
    ((runOps State.new fanTrace).job_event 1 "finish").2 =
      Except.ok (({3, 4} : Finset Int).filter fun c =>
        readyAfter (runOps State.new fanTrace) 1 c = true) ∧
    (({3, 4} : Finset Int).filter fun c =>
      readyAfter (runOps State.new fanTrace) 1 c = true) = {3} ∧
    ((runOps State.new fanTrace).job_event 1 "finish").1.jobs 4 =
      some { jobid := 4, ancestors := ({1, 2} : Finset Int).erase 1,
             children := ∅ } := by
  have hA : (runOps State.new fanTrace).jobs 1 =
      some { jobid := 1, ancestors := ∅, children := {3, 4} } :=
    jobs_eq_of_jobRecordIs (by decide)
  have h3 : (runOps State.new fanTrace).jobs 3 =
      some { jobid := 3, ancestors := {1}, children := ∅ } :=
    jobs_eq_of_jobRecordIs (by decide)
  have h4 : (runOps State.new fanTrace).jobs 4 =
      some { jobid := 4, ancestors := {1, 2}, children := ∅ } :=
    jobs_eq_of_jobRecordIs (by decide)
  have hchildren : ∀ c ∈ ({3, 4} : Finset Int),
      ∃ jc, (runOps State.new fanTrace).jobs c = some jc ∧ jc.jobid = c := by
    intro c hc
    rcases Finset.mem_insert.mp hc with rfl | hc'
    · exact ⟨_, h3, rfl⟩
    · have hc4 : c = 4 := Finset.mem_singleton.mp hc'
      subst hc4
      exact ⟨_, h4, rfl⟩
  obtain ⟨hret, hmut⟩ := finish_returns_exactly_newly_unblocked
    (runOps State.new fanTrace) 1
    { jobid := 1, ancestors := ∅, children := {3, 4} } hA hchildren
  exact ⟨hA, hret, by decide, hmut 4 (by decide) _ h4⟩

/-- C3: for every registered job, `job_event(jobid, "submit")` succeeds,
returns `{jobid}` exactly when the job's ancestor set is empty (the empty
set otherwise), and leaves the entire state — job registry and symbol
index — unchanged. -/
theorem submit_returns_ready_and_is_pure (s : State) (jobid : Int) (j : Job)
    (h : s.jobs jobid = some j) :
    s.job_event jobid "submit" =
      (s, Except.ok (if j.ancestors = ∅ then {jobid} else ∅)) :=
  job_event_submit s jobid j h

/-- Witness for C3: job 1 was registered with an unmatched `In`, so it has
no ancestors and `submit` returns `{1}` without touching the state. -/
theorem submit_returns_ready_and_is_pure_witness :
    (State.add_job State.new 1 [Dependency.new DependencyType.In "foo"]).jobs 1 =
      some (Job.new 1) ∧
    (State.add_job State.new 1
        [Dependency.new DependencyType.In "foo"]).job_event 1 "submit" =
      (State.add_job State.new 1 [Dependency.new DependencyType.In "foo"],
       Except.ok (if (Job.new 1).ancestors = ∅ then {1} else ∅)) :=
  ⟨by decide,
   submit_returns_ready_and_is_pure
     (State.add_job State.new 1 [Dependency.new DependencyType.In "foo"]) 1
     (Job.new 1) (by decide)⟩

/-- C4: `job_event` on an unregistered job id returns `InvalidJobID` for
every event string, and on a registered job with an unrecognized event
string returns `InvalidEvent`; as a total Lean function over all inputs it
can never panic. -/
theorem job_event_error_taxonomy :
    (∀ (s : State) (jobid : Int) (event : String), s.jobs jobid = none →
      s.job_event jobid event = (s, Except.error StateError.InvalidJobID)) ∧
    (∀ (s : State) (jobid : Int) (event : String) (j : Job),
      s.jobs jobid = some j → event ≠ "submit" → event ≠ "depend" →
      event ≠ "alloc" → event ≠ "finish" →
      s.job_event jobid event = (s, Except.error StateError.InvalidEvent)) :=
  ⟨fun s jobid event h => job_event_invalid_jobid s jobid event h,
   fun s jobid event j h h1 h2 h3 h4 =>
     job_event_invalid_event s jobid event j h h1 h2 h3 h4⟩

/-- Witness for C4: an event against the empty registry fails with
`InvalidJobID`; the unrecognized event "foobar" against registered job 1
fails with `InvalidEvent` (the same pair the source's `invalid_jobid` test
checks). -/
theorem job_event_error_taxonomy_witness :
    State.new.job_event 5 "submit" =
      (State.new, Except.error StateError.InvalidJobID) ∧
    (State.add_job State.new 1
        [Dependency.new DependencyType.In "foo"]).job_event 1 "foobar" =
      (State.add_job State.new 1 [Dependency.new DependencyType.In "foo"],
       Except.error StateError.InvalidEvent) :=
  ⟨job_event_error_taxonomy.1 State.new 5 "submit" rfl,
   job_event_error_taxonomy.2
     (State.add_job State.new 1 [Dependency.new DependencyType.In "foo"]) 1
     "foobar" (Job.new 1) (by decide) (by decide) (by decide) (by decide)
     (by decide)⟩

/-- C5: when `finish` meets a recorded child that is absent from the
registry it keeps processing the remaining children, mutates the ancestor
set of every child that is present, and returns `Err(MissingDescendent)`
with no ready set (the `Except.error` carries none); records outside the
children set are untouched, so the successful mutations persist despite the
error. -/
theorem finish_missing_descendent_partial (s : State) (A : Int) (jA : Job)
    (hA : s.jobs A = some jA) (c : Int) (hc : c ∈ jA.children)
    (hmiss : s.jobs c = none) :
    (s.job_event A "finish").2 = Except.error StateError.MissingDescendent ∧
    (∀ c' ∈ jA.children, ∀ jc, s.jobs c' = some jc →
      ((s.job_event A "finish").1).jobs c' =
        some { jobid := jc.jobid, ancestors := jc.ancestors.erase A,
               children := jc.children }) ∧
    (∀ k, k ∉ jA.children → ((s.job_event A "finish").1).jobs k = s.jobs k) :=
  ⟨finish_result_err s A jA hA c hc hmiss,
   (finish_mutates_children s A jA hA).1,
   (finish_mutates_children s A jA hA).2⟩

/-- Witness for C5 on `danglingState`: job 1 records children 2 and 3 but
job 2 is missing; `finish(1)` fails with `MissingDescendent` while the
present child 3 still loses ancestor 1. -/
theorem finish_missing_descendent_partial_witness :
    danglingState.jobs 1 =
      some { jobid := 1, ancestors := ∅, children := {2, 3} } ∧
    danglingState.jobs 2 = none ∧
    (danglingState.job_event 1 "finish").2 =
      Except.error StateError.MissingDescendent ∧
    (danglingState.job_event 1 "finish").1.jobs 3 =
      some { jobid := 3, ancestors := ({1} : Finset Int).erase 1,
             children := ∅ } := by
  obtain ⟨herr, hmut, _⟩ := finish_missing_descendent_partial danglingState 1
    { jobid := 1, ancestors := ∅, children := {2, 3} } (by decide) 2
    (by decide) (by decide)
  exact ⟨by decide, by decide, herr,
    hmut 3 (by decide) { jobid := 3, ancestors := {1}, children := ∅ }
      (by decide)⟩

/-- C6: `add_job` with an empty dependency list leaves the state completely
unchanged (the job is not inserted, the symbol index untouched), and as
long as no later `add_job` call registers that id, every subsequent
`job_event` against it answers `InvalidJobID`. -/
theorem add_job_empty_deps_noop :
    (∀ (s : State) (jobid : Int), State.add_job s jobid [] = s) ∧
    (∀ (s : State) (jobid : Int), s.jobs jobid = none →
      ∀ (t : List Op), (∀ deps, Op.addJob jobid deps ∉ t) →
      ∀ (event : String),
        (runOps (State.add_job s jobid []) t).job_event jobid event =
          (runOps (State.add_job s jobid []) t,
           Except.error StateError.InvalidJobID)) := by
  constructor
  · exact add_job_nil
  · intro s jobid hfresh t ht event
    have hnone : (runOps (State.add_job s jobid []) t).jobs jobid = none := by
      rw [add_job_nil]
      exact runOps_none t s jobid (not_mem_addIds ht) hfresh
    exact job_event_invalid_jobid _ _ _ hnone

/-- Witness for C6: registering job 7 with no dependencies is a no-op, and
after a further unrelated event its `finish` still fails with
`InvalidJobID`. -/
theorem add_job_empty_deps_noop_witness :
    State.add_job State.new 7 [] = State.new ∧
    (runOps (State.add_job State.new 7 []) [Op.jobEvent 7 "submit"]).job_event
        7 "finish" =
      (runOps (State.add_job State.new 7 []) [Op.jobEvent 7 "submit"],
       Except.error StateError.InvalidJobID) :=
  ⟨add_job_empty_deps_noop.1 State.new 7,
   add_job_empty_deps_noop.2 State.new 7 rfl [Op.jobEvent 7 "submit"]
     (by intro deps h; simp at h) "finish"⟩

/-- C9: a non-empty dependency list always ends with the job inserted into
the registry, even when an `In`/`InOut` step fails; concretely, in
`add_job(1, [Out "a", In "a", In "b"])` after job 2 produced "b", the
`In "a"` step fails with a producer-lookup error (job 1 is in the index for
"a" but not yet in the registry) yet the later `In "b"` dependency is still
processed and job 1 is stored with the ancestor edge to job 2. -/
theorem add_job_inserts_despite_dependency_errors :
    (∀ (s : State) (jobid : Int) (deps : List Dependency), deps ≠ [] →
      ∃ j, (State.add_job s jobid deps).jobs jobid = some j ∧
        j.jobid = jobid) ∧
    ((State.add_job (State.add_job State.new 2
        [Dependency.new DependencyType.Out "b"]) 1
        [Dependency.new DependencyType.Out "a",
         Dependency.new DependencyType.In "a",
         Dependency.new DependencyType.In "b"]).jobs 1 =
      some { jobid := 1, ancestors := {2}, children := ∅ }) ∧
    ((State.add_job (State.add_job State.new 2
        [Dependency.new DependencyType.Out "b"]) 1
        [Dependency.new DependencyType.Out "a",
         Dependency.new DependencyType.In "a",
         Dependency.new DependencyType.In "b"]).jobs 2 =
      some { jobid := 2, ancestors := ∅, children := {1} }) ∧
    ((((State.add_job State.new 2
        [Dependency.new DependencyType.Out "b"]).add_out_dependency
          (Job.new 1) "a").process_dependency (Job.new 1)
          (Dependency.new DependencyType.In "a")).2.2 =
      Except.error StateError.InvalidJobID) := by
  refine ⟨?_, by decide, by decide, by decide⟩
  intro s jobid deps hne
  unfold State.add_job
  rw [if_neg (fun h => hne (List.length_eq_zero.mp h))]
  rcases hfold : deps.foldl addJobStep (s, Job.new jobid) with ⟨s₁, j⟩
  refine ⟨j, setJob_self _ _ _, ?_⟩
  have hjid := foldAdd_jobid deps s (Job.new jobid)
  rw [hfold] at hjid
  exact hjid

/-- Witness for C9's universally quantified part at a concrete input: a
job registered with one (unmatched) dependency lands in the registry. -/
theorem add_job_inserts_despite_dependency_errors_witness :
    ([Dependency.new DependencyType.In "z"] ≠ ([] : List Dependency)) ∧
    ∃ j, (State.add_job State.new 9
        [Dependency.new DependencyType.In "z"]).jobs 9 = some j ∧
      j.jobid = 9 :=
  ⟨by simp,
   add_job_inserts_despite_dependency_errors.1 State.new 9
     [Dependency.new DependencyType.In "z"] (by simp)⟩

/-- C8: processing an `InOut(label)` dependency is exactly the `In` step on
the current state (so it matches only producers already recorded in the
symbol index) followed by the `Out` step; and a job registered under a
fresh id (in a key-consistent registry) never gains itself as an ancestor
or a child. -/
theorem inout_in_first_then_out_no_self_edge :
    (∀ (s : State) (job : Job) (scope : DependencyScope)
        (scheme : DependencyScheme) (label : String),
      State.process_dependency s job
          { dep_type := DependencyType.InOut, scope := scope,
            scheme := scheme, value := label } =
        ((s.add_in_dependency job label).1.add_out_dependency
            (s.add_in_dependency job label).2.1 label,
         (s.add_in_dependency job label).2.1,
         (s.add_in_dependency job label).2.2)) ∧
    (∀ (s : State) (jobid : Int) (deps : List Dependency),
      s.jobs jobid = none → KeyConsistent s →
      ∀ j, (State.add_job s jobid deps).jobs jobid = some j →
        jobid ∉ j.ancestors ∧ jobid ∉ j.children) := by
  constructor
  · intro s job scope scheme label
    unfold State.process_dependency
    rcases h : s.add_in_dependency job label with ⟨s₁, j₁, ret⟩
    rfl
  · intro s jobid deps hfresh hkey j hj
    by_cases hne : deps = []
    · subst hne
      rw [add_job_nil] at hj
      rw [hfresh] at hj
      exact Option.noConfusion hj
    · obtain ⟨jN, hjN, _, hjNch, hjNanc⟩ :=
        add_job_self s jobid deps hne hfresh hkey
      rw [hjN] at hj
      cases hj
      constructor
      · intro hmem
        obtain ⟨_, hne', _⟩ := hjNanc _ hmem
        exact hne' rfl
      · rw [hjNch]
        exact Finset.not_mem_empty _

/-- Witness for C8: job 2 registers `[InOut "foo", In "foo"]` after job 1
produced "foo".  The second `In "foo"` now sees job 2 itself in the index
(from the `InOut`'s `Out` half) but finds no registry record for it, so no
self-edge forms: job 2 ends with ancestors `{1}` and no children. -/
theorem inout_in_first_then_out_no_self_edge_witness :
    (runOps State.new
        [Op.addJob 1 [Dependency.new DependencyType.Out "foo"]]).jobs 2 =
      none ∧
    (State.add_job
        (runOps State.new
          [Op.addJob 1 [Dependency.new DependencyType.Out "foo"]]) 2
        [Dependency.new DependencyType.InOut "foo",
         Dependency.new DependencyType.In "foo"]).jobs 2 =
      some { jobid := 2, ancestors := {1}, children := ∅ } ∧
    ((2 : Int) ∉ ({1} : Finset Int) ∧ (2 : Int) ∉ (∅ : Finset Int)) := by
  have h2 : (State.add_job
      (runOps State.new
        [Op.addJob 1 [Dependency.new DependencyType.Out "foo"]]) 2
      [Dependency.new DependencyType.InOut "foo",
       Dependency.new DependencyType.In "foo"]).jobs 2 =
      some { jobid := 2, ancestors := {1}, children := ∅ } :=
    jobs_eq_of_jobRecordIs (by decide)
  refine ⟨by decide, h2, ?_⟩
  exact inout_in_first_then_out_no_self_edge.2
    (runOps State.new [Op.addJob 1 [Dependency.new DependencyType.Out "foo"]])
    2
    [Dependency.new DependencyType.InOut "foo",
     Dependency.new DependencyType.In "foo"]
    (by decide)
    (runOps_good_new [Op.addJob 1 [Dependency.new DependencyType.Out "foo"]]
      (by decide)).1
    { jobid := 2, ancestors := {1}, children := ∅ } h2

/-- C1 as stated is false: after `finish(1)` in the producer/consumer chain,
job 2 is still recorded among job 1's children while job 1 has been removed
from job 2's ancestors, so the two-way edge-symmetry property fails at the
pair (1, 2) even though both jobs are present. -/
theorem edge_symmetry_counterexample :
    ¬ (∀ (a b : Int) (ja jb : Job),
        (runOps State.new (chainTrace ++ [Op.jobEvent 1 "finish"])).jobs a =
          some ja →
        (runOps State.new (chainTrace ++ [Op.jobEvent 1 "finish"])).jobs b =
          some jb →
        (b ∈ ja.children ↔ a ∈ jb.ancestors)) := by
  intro h
  have h1 : (runOps State.new (chainTrace ++ [Op.jobEvent 1 "finish"])).jobs 1 =
      some { jobid := 1, ancestors := ∅, children := {2} } :=
    jobs_eq_of_jobRecordIs (by decide)
  have h2 : (runOps State.new (chainTrace ++ [Op.jobEvent 1 "finish"])).jobs 2 =
      some { jobid := 2, ancestors := ∅, children := ∅ } :=
    jobs_eq_of_jobRecordIs (by decide)
  have hmem := (h 1 2 _ _ h1 h2).mp (by decide)
  exact absurd hmem (by decide)

/-- C1 (amended): along every call sequence whose `add_job` ids are
pairwise distinct (the spec leaves duplicate registration undefined), half
of edge symmetry is invariant: whenever B is in A's ancestor set, B is
present in the registry and A is in B's children set.  The converse
direction is exactly what `finish` breaks (see the counterexample): it
removes the finisher from each child's ancestors but leaves the finisher's
children set untouched. -/
theorem edge_half_symmetry_invariant (t : List Op)
    (hnd : (addIds t).Nodup) :
    ∀ (a : Int) (ja : Job), (runOps State.new t).jobs a = some ja →
      ∀ b ∈ ja.ancestors, ∃ jb, (runOps State.new t).jobs b = some jb ∧
        a ∈ jb.children :=
  (runOps_good_new t hnd).2.1

/-- Witness for the amended C1 on the chain: job 2 has ancestor 1, and the
invariant yields a registry record for job 1 listing 2 among its
children. -/
theorem edge_half_symmetry_invariant_witness :
    (addIds chainTrace).Nodup ∧
    (runOps State.new chainTrace).jobs 2 =
      some { jobid := 2, ancestors := {1}, children := ∅ } ∧
    ∃ jb, (runOps State.new chainTrace).jobs 1 = some jb ∧
      (2 : Int) ∈ jb.children := by
  have h2 : (runOps State.new chainTrace).jobs 2 =
      some { jobid := 2, ancestors := {1}, children := ∅ } :=
    jobs_eq_of_jobRecordIs (by decide)
  exact ⟨by decide, h2,
    edge_half_symmetry_invariant chainTrace (by decide) 2
      { jobid := 2, ancestors := {1}, children := ∅ } h2 1 (by decide)⟩

/-- C10: on every state reachable by a call sequence with pairwise-distinct
`add_job` ids, `finish(A)` leaves A's own record (presence, ancestors,
children) untouched and mutates nothing outside A's children; both the
first and an immediately repeated `finish(A)` return `Ok` of the same set —
the children whose ancestor set is empty once A is removed. -/
theorem finish_preserves_own_record (t : List Op) (hnd : (addIds t).Nodup)
    (A : Int) (jA : Job) (hA : (runOps State.new t).jobs A = some jA) :
    ((runOps State.new t).job_event A "finish").1.jobs A = some jA ∧
    (∀ k, k ∉ jA.children →
      ((runOps State.new t).job_event A "finish").1.jobs k =
        (runOps State.new t).jobs k) ∧
    ((runOps State.new t).job_event A "finish").2 =
      Except.ok (jA.children.filter fun c =>
        readyAfter (runOps State.new t) A c = true) ∧
    ((((runOps State.new t).job_event A "finish").1).job_event A "finish").2 =
      ((runOps State.new t).job_event A "finish").2 := by
  obtain ⟨hkey, hedge, hself, hchild⟩ := runOps_good_new t hnd
  have hselfA : A ∉ jA.children := hself A jA hA
  obtain ⟨hmut, hframe⟩ :=
    finish_mutates_children (runOps State.new t) A jA hA
  have hrecA : ((runOps State.new t).job_event A "finish").1.jobs A =
      some jA := by
    rw [hframe A hselfA]
    exact hA
  have hkeys : ∀ c ∈ jA.children, ∀ jc,
      (runOps State.new t).jobs c = some jc → jc.jobid = c :=
    fun c _ jc hjc => hkey c jc hjc
  have hpres : ∀ c ∈ jA.children, (runOps State.new t).jobs c ≠ none :=
    hchild A jA hA
  have hres₁ := finish_result_ok (runOps State.new t) A jA hA hkeys hpres
  obtain ⟨hkey₁, _, _, hchild₁⟩ :=
    job_event_good (runOps State.new t) A "finish" ⟨hkey, hedge, hself, hchild⟩
  have hkeys₁ : ∀ c ∈ jA.children, ∀ jc,
      ((runOps State.new t).job_event A "finish").1.jobs c = some jc →
        jc.jobid = c :=
    fun c _ jc hjc => hkey₁ c jc hjc
  have hpres₁ : ∀ c ∈ jA.children,
      ((runOps State.new t).job_event A "finish").1.jobs c ≠ none :=
    hchild₁ A jA hrecA
  have hres₂ := finish_result_ok
    ((runOps State.new t).job_event A "finish").1 A jA hrecA hkeys₁ hpres₁
  refine ⟨hrecA, hframe, hres₁, ?_⟩
  rw [hres₂, hres₁]
  congr 1
  apply Finset.filter_congr
  intro c hc
  obtain ⟨jc, hjc⟩ :
      ∃ jc, (runOps State.new t).jobs c = some jc := by
    cases hjc : (runOps State.new t).jobs c with
    | none => exact absurd hjc (hpres c hc)
    | some jc => exact ⟨jc, rfl⟩
  have hc₁ : ((runOps State.new t).job_event A "finish").1.jobs c =
      some { jobid := jc.jobid, ancestors := jc.ancestors.erase A,
             children := jc.children } := hmut c hc jc hjc
  rw [show readyAfter ((runOps State.new t).job_event A "finish").1 A c =
      readyAfter (runOps State.new t) A c by
    unfold readyAfter
    rw [hc₁, hjc]
    simp [Finset.erase_idem]]

/-- Witness for C10 on the chain: after `finish(1)`, job 1's record still
shows children `{2}`, and a second `finish(1)` returns the same `Ok` result
as the first. -/
theorem finish_preserves_own_record_witness :
    (addIds chainTrace).Nodup ∧
    (runOps State.new chainTrace).jobs 1 =
      some { jobid := 1, ancestors := ∅, children := {2} } ∧
    ((runOps State.new chainTrace).job_event 1 "finish").1.jobs 1 =
      some { jobid := 1, ancestors := ∅, children := {2} } ∧
    ((((runOps State.new chainTrace).job_event 1 "finish").1).job_event 1
        "finish").2 =
      ((runOps State.new chainTrace).job_event 1 "finish").2 := by
  have h1 : (runOps State.new chainTrace).jobs 1 =
      some { jobid := 1, ancestors := ∅, children := {2} } :=
    jobs_eq_of_jobRecordIs (by decide)
  obtain ⟨hrec, _, _, hsecond⟩ := finish_preserves_own_record chainTrace
    (by decide) 1 { jobid := 1, ancestors := ∅, children := {2} } h1
  exact ⟨by decide, h1, hrec, hsecond⟩

/-- C7: symbol lookup is a snapshot at registration time.  If B is
registered with an `In`/`InOut` dependency on `label` strictly before A is
registered with an `Out`/`InOut` on the same label — along any call
sequence whose `add_job` ids are pairwise distinct — then no edge ever
forms between them in that direction: A never appears in B's ancestor set
and B never appears in A's children set, in every later state.  (The label
hypotheses are stated as in the claim; the proof shows the stronger fact
that a job registered after B can never become B's ancestor at all.) -/
theorem consumer_before_producer_never_linked
    (t₁ t₂ t₃ : List Op) (A B : Int) (depsA depsB : List Dependency)
    (label : String)
    (hBdep : ∃ d ∈ depsB, (d.dep_type = DependencyType.In ∨
      d.dep_type = DependencyType.InOut) ∧ d.value = label)
    (hAdep : ∃ d ∈ depsA, (d.dep_type = DependencyType.Out ∨
      d.dep_type = DependencyType.InOut) ∧ d.value = label)
    (hnd : (addIds (t₁ ++ (Op.addJob B depsB ::
      (t₂ ++ (Op.addJob A depsA :: t₃))))).Nodup) :
    (∀ jB, (runOps State.new (t₁ ++ (Op.addJob B depsB ::
        (t₂ ++ (Op.addJob A depsA :: t₃))))).jobs B = some jB →
      A ∉ jB.ancestors) ∧
    (∀ jA, (runOps State.new (t₁ ++ (Op.addJob B depsB ::
        (t₂ ++ (Op.addJob A depsA :: t₃))))).jobs A = some jA →
      B ∉ jA.children) := by
  have hndl : (addIds t₁ ++ B :: (addIds t₂ ++ A :: addIds t₃)).Nodup := by
    simpa [addIds_append, addIds] using hnd
  rw [List.nodup_append] at hndl
  obtain ⟨hnd₁, hndr, hdisj⟩ := hndl
  rw [List.nodup_cons] at hndr
  obtain ⟨hBnotr, hndr₂⟩ := hndr
  rw [List.nodup_append] at hndr₂
  obtain ⟨hnd₂, hndr₃, hdisj₂⟩ := hndr₂
  rw [List.nodup_cons] at hndr₃
  obtain ⟨hAnot₃, hnd₃⟩ := hndr₃
  have hB₂ : B ∉ addIds t₂ := fun h => hBnotr (List.mem_append.mpr (Or.inl h))
  have hBA : B ≠ A := fun h => hBnotr
    (List.mem_append.mpr (Or.inr (List.mem_cons.mpr (Or.inl h))))
  have hB₃ : B ∉ addIds t₃ := fun h => hBnotr
    (List.mem_append.mpr (Or.inr (List.mem_cons.mpr (Or.inr h))))
  have hA₂ : A ∉ addIds t₂ := fun h => hdisj₂ h (List.mem_cons_self _ _)
  have hA₁ : A ∉ addIds t₁ := fun h => hdisj h
    (List.mem_cons.mpr (Or.inr (List.mem_append.mpr
      (Or.inr (List.mem_cons_self _ _)))))
  have hB₁ : B ∉ addIds t₁ := fun h => hdisj h (List.mem_cons_self _ _)
  obtain ⟨dB, hdBmem, _⟩ := hBdep
  have hBne : depsB ≠ [] := List.ne_nil_of_mem hdBmem
  obtain ⟨dA, hdAmem, _⟩ := hAdep
  have hAne : depsA ≠ [] := List.ne_nil_of_mem hdAmem
  have hfullB : runOps State.new (t₁ ++ (Op.addJob B depsB ::
      (t₂ ++ (Op.addJob A depsA :: t₃)))) =
      runOps (State.add_job (runOps State.new t₁) B depsB)
        (t₂ ++ (Op.addJob A depsA :: t₃)) := by
    rw [runOps_append, runOps_cons]
    rfl
  have hfullA : runOps (State.add_job (runOps State.new t₁) B depsB)
      (t₂ ++ (Op.addJob A depsA :: t₃)) =
      runOps (State.add_job
        (runOps (State.add_job (runOps State.new t₁) B depsB) t₂) A depsA)
        t₃ := by
    rw [runOps_append, runOps_cons]
    rfl
  have hkeyu₀ : KeyConsistent (runOps State.new t₁) :=
    (runOps_good_new t₁ hnd₁).1
  have hfreshB : (runOps State.new t₁).jobs B = none :=
    runOps_none t₁ State.new B hB₁ rfl
  have hfreshAu₀ : (runOps State.new t₁).jobs A = none :=
    runOps_none t₁ State.new A hA₁ rfl
  obtain ⟨jB₁, hjB₁, _, _, hjB₁anc⟩ :=
    add_job_self (runOps State.new t₁) B depsB hBne hfreshB hkeyu₀
  have hAnotanc : A ∉ jB₁.ancestors := by
    intro hmem
    obtain ⟨hne', _, _⟩ := hjB₁anc A hmem
    exact hne' hfreshAu₀
  have hBnottail : B ∉ addIds (t₂ ++ (Op.addJob A depsA :: t₃)) := by
    simp only [addIds_append, addIds]
    intro h
    rcases List.mem_append.mp h with h' | h'
    · exact hB₂ h'
    · rcases List.mem_cons.mp h' with h'' | h''
      · exact hBA h''
      · exact hB₃ h''
  obtain ⟨jB', hjB', _, hjB'anc, _⟩ :=
    runOps_persist (t₂ ++ (Op.addJob A depsA :: t₃))
      (State.add_job (runOps State.new t₁) B depsB) B jB₁ hjB₁ hBnottail
  have hABne : A ≠ B := fun h => hBA h.symm
  have hmidA : (runOps (State.add_job (runOps State.new t₁) B depsB)
      t₂).jobs A = none := by
    apply runOps_none t₂ _ A hA₂
    exact ((add_job_frame_other (runOps State.new t₁) B depsB A hABne).1).mpr
      hfreshAu₀
  have hmid_eq : runOps (State.add_job (runOps State.new t₁) B depsB) t₂ =
      runOps State.new (t₁ ++ Op.addJob B depsB :: t₂) := by
    rw [runOps_append, runOps_cons]
    rfl
  have hndpre : (addIds (t₁ ++ Op.addJob B depsB :: t₂)).Nodup := by
    simp only [addIds_append, addIds]
    rw [List.nodup_append]
    refine ⟨hnd₁, List.nodup_cons.mpr ⟨hB₂, hnd₂⟩, ?_⟩
    intro a ha hmem
    apply hdisj ha
    rcases List.mem_cons.mp hmem with h | h
    · exact List.mem_cons.mpr (Or.inl h)
    · exact List.mem_cons.mpr (Or.inr (List.mem_append.mpr (Or.inl h)))
  have hkeymid : KeyConsistent
      (runOps (State.add_job (runOps State.new t₁) B depsB) t₂) := by
    rw [hmid_eq]
    exact (runOps_good_new _ hndpre).1
  obtain ⟨jA₁, hjA₁, _, hjA₁ch, _⟩ :=
    add_job_self (runOps (State.add_job (runOps State.new t₁) B depsB) t₂)
      A depsA hAne hmidA hkeymid
  obtain ⟨jA', hjA', _, _, hjA'ch⟩ :=
    runOps_persist t₃
      (State.add_job
        (runOps (State.add_job (runOps State.new t₁) B depsB) t₂) A depsA)
      A jA₁ hjA₁ hAnot₃
  constructor
  · intro jB hjB
    rw [hfullB, hjB'] at hjB
    cases hjB
    intro hmem
    exact hAnotanc (hjB'anc hmem)
  · intro jA hjA
    rw [hfullB, hfullA, hjA'] at hjA
    cases hjA
    intro hmem
    have hsub := hjA'ch hmem
    rw [hjA₁ch] at hsub
    rcases Finset.mem_union.mp hsub with h | h
    · exact Finset.not_mem_empty B h
    · exact hB₃ (List.mem_toFinset.mp h)

/-- Witness for C7: job 1 consumes "foo" before job 2 produces it; no edge
forms in either direction between them. -/
theorem consumer_before_producer_never_linked_witness :
    (∃ d ∈ [Dependency.new DependencyType.In "foo"],
      (d.dep_type = DependencyType.In ∨ d.dep_type = DependencyType.InOut) ∧
        d.value = "foo") ∧
    (∃ d ∈ [Dependency.new DependencyType.Out "foo"],
      (d.dep_type = DependencyType.Out ∨ d.dep_type = DependencyType.InOut) ∧
        d.value = "foo") ∧
    (addIds ([] ++ (Op.addJob 1 [Dependency.new DependencyType.In "foo"] ::
      ([] ++ (Op.addJob 2 [Dependency.new DependencyType.Out "foo"] ::
        []))))).Nodup ∧
    (∀ jB, (runOps State.new
        ([] ++ (Op.addJob 1 [Dependency.new DependencyType.In "foo"] ::
          ([] ++ (Op.addJob 2 [Dependency.new DependencyType.Out "foo"] ::
            []))))).jobs 1 = some jB → (2 : Int) ∉ jB.ancestors) ∧
    (∀ jA, (runOps State.new
        ([] ++ (Op.addJob 1 [Dependency.new DependencyType.In "foo"] ::
          ([] ++ (Op.addJob 2 [Dependency.new DependencyType.Out "foo"] ::
            []))))).jobs 2 = some jA → (1 : Int) ∉ jA.children) := by
  obtain ⟨hanc, hch⟩ := consumer_before_producer_never_linked [] [] [] 2 1
    [Dependency.new DependencyType.Out "foo"]
    [Dependency.new DependencyType.In "foo"] "foo"
    ⟨Dependency.new DependencyType.In "foo", List.mem_cons_self _ _,
      Or.inl rfl, rfl⟩
    ⟨Dependency.new DependencyType.Out "foo", List.mem_cons_self _ _,
      Or.inl rfl, rfl⟩
    (by decide)
  exact ⟨⟨Dependency.new DependencyType.In "foo", List.mem_cons_self _ _,
      Or.inl rfl, rfl⟩,
    ⟨Dependency.new DependencyType.Out "foo", List.mem_cons_self _ _,
      Or.inl rfl, rfl⟩,
    by decide, hanc, hch⟩

